import Mathlib

/-!
# Verification of `git-ai-commit` core behaviors

A shallow embedding, in Lean 4, of the core logic of the `git-ai-commit`
command-line tool (TypeScript):

* the request adapter's compatibility-fallback retry protocol
  (`AIService.createStreamingCompletion` in `src/commands/ai.ts`),
* the streaming-response aggregation loop of the same function,
* the commit-message normalization pipeline
  (`AIService.generateCommitMessage` / `AIService.cleanMessage`),
* the tag-notes request construction (`AIService.generateTagNotes`,
  `src/prompts/tag.ts`),
* the tag lifecycle controller (`TagCommand.handleTag`,
  `TagCommand.selectRemotesForPush`, `TagCommand.incrementPatchVersion`
  in `src/commands/tag.ts`).

Strings are modelled as `List Char` where character-level reasoning is
required (the normalizer), and as Lean `String` elsewhere.  JavaScript
regular-expression operations are modelled by dedicated scanning functions
that replicate the exact matching semantics (anchoring, greedy/lazy
quantifiers, global replacement restarting after each match) of the specific
patterns appearing in the source.  Effectful code is modelled by explicit
environments supplying the results of external calls (git subprocesses,
interactive prompts, the generation provider), with the observable behavior
returned as a trace of events plus a terminal result.
-/

namespace GitAICommit

/-! ## JavaScript string primitives (on `List Char`) -/

/-- Characters matched by JavaScript's `\s` class / trimmed by
`String.prototype.trim` (restricted to the ASCII whitespace actually
reachable in this code base). -/
def jsIsWs (c : Char) : Bool :=
  c = ' ' || c = '\t' || c = '\n' || c = '\r' || c = '\x0b' || c = '\x0c'

/-- Left trim (drop leading whitespace). -/
def ltrim (l : List Char) : List Char := l.dropWhile jsIsWs

/-- Right trim (drop trailing whitespace). -/
def rtrim (l : List Char) : List Char := (l.reverse.dropWhile jsIsWs).reverse

/-- JavaScript `String.prototype.trim`. -/
def jsTrim (l : List Char) : List Char := ltrim (rtrim l)

/-- `String.prototype.split(sep)` for a single-character separator. -/
def splitOnChar (sep : Char) : List Char → List (List Char)
  | [] => [[]]
  | c :: rest =>
    if c = sep then
      [] :: splitOnChar sep rest
    else
      match splitOnChar sep rest with
      | [] => [[c]]            -- unreachable: splitOnChar never returns []
      | hd :: tl => (c :: hd) :: tl

/-- `Array.prototype.join('\n')`. -/
def joinLines : List (List Char) → List Char
  | [] => []
  | [l] => l
  | l :: ls => l ++ '\n' :: joinLines ls

/-- Concatenation of a list of chunks (`Array.prototype.join('')`). -/
def concatChunks : List (List Char) → List Char
  | [] => []
  | l :: ls => l ++ concatChunks ls

/-- JavaScript substring test `a.includes(b)` (`List.IsInfix` is its
propositional counterpart). -/
def includes (hay needle : List Char) : Bool :=
  decide (needle <:+: hay)

/-! ## The request adapter: error classification (`src/commands/ai.ts`)

`createStreamingCompletion` classifies the error thrown by a failed attempt
with three predicates over an untyped error object.  The error object is
modelled by the fields those predicates read. -/

/-- The nested `error` property of a provider error
(`error?.message / error?.param / error?.code`). -/
structure APIErrorBody where
  message : Option String
  param   : Option String
  code    : Option String
deriving DecidableEq, Repr

/-- A provider error as inspected by `AIService`'s classification helpers:
a `status` (HTTP status), an optional nested `error` body, and top-level
`message` / `param` / `code` fallbacks.  (The guards
`!error || typeof error !== 'object'` in the source correspond to values
outside this model; every modelled error is a non-null object.) -/
structure APIError where
  status  : Option Nat
  err     : Option APIErrorBody
  message : Option String
  param   : Option String
  code    : Option String
deriving DecidableEq, Repr

/-- `errorObj.error?.message ?? errorObj.message` (and likewise for
`param`/`code`): the JS nullish-coalescing chain. -/
def APIError.effMessage (e : APIError) : Option String :=
  match e.err.bind (·.message) with
  | some m => some m
  | none => e.message

def APIError.effParam (e : APIError) : Option String :=
  match e.err.bind (·.param) with
  | some p => some p
  | none => e.param

def APIError.effCode (e : APIError) : Option String :=
  match e.err.bind (·.code) with
  | some c => some c
  | none => e.code

/-- `AIService.isRateLimitError`: `status === 429`. -/
def isRateLimitError (e : APIError) : Bool :=
  e.status = some 429

/-- `AIService.isUnsupportedTokenParamError(error, param)`. -/
def isUnsupportedTokenParamError (e : APIError) (param : String) : Bool :=
  (e.effCode = some "unsupported_parameter" && e.effParam = some param) ||
    (match e.effMessage with
     | some m => includes m.data "Unsupported parameter".data &&
                 includes m.data param.data
     | none => false)

/-- `AIService.isUnsupportedValueError(error, param)`. -/
def isUnsupportedValueError (e : APIError) (param : String) : Bool :=
  (e.effCode = some "unsupported_value" && e.effParam = some param) ||
    (match e.effMessage with
     | some m => includes m.data "Unsupported value".data &&
                 includes m.data param.data
     | none => false)

/-! ## The request adapter: request shape and corrective rewrites -/

/-- A chat message (`role`, `content`). -/
inductive ChatRole | system | user
deriving DecidableEq, Repr

structure ChatMessage where
  role    : ChatRole
  content : String
deriving DecidableEq, Repr

/-- A `ChatCompletionCreateParamsNonStreaming` request as manipulated by the
adapter: model id, ordered message list, the two alternative token-limit
fields, and an optional sampling temperature. -/
structure ChatRequest where
  model               : String
  messages            : List ChatMessage
  max_tokens            : Option Nat
  max_completion_tokens : Option Nat
  temperature         : Option ℚ
deriving DecidableEq, Repr

/-- `AIService.swapTokenParam`: carry the token value
(`max_completion_tokens ?? max_tokens`) over to the requested field name,
dropping the other field. -/
def swapTokenParam (req : ChatRequest) (targetIsMaxTokens : Bool) : ChatRequest :=
  let tokenValue := match req.max_completion_tokens with
                    | some v => some v
                    | none => req.max_tokens
  match tokenValue with
  | none => { req with max_tokens := none, max_completion_tokens := none }
  | some v =>
    if targetIsMaxTokens then
      { req with max_tokens := some v, max_completion_tokens := none }
    else
      { req with max_tokens := none, max_completion_tokens := some v }

/-- `AIService.removeTemperature`. -/
def removeTemperature (req : ChatRequest) : ChatRequest :=
  { req with temperature := none }

/-- Outcome of one `createStreamingCompletion` call: the aggregated text on
success, or the error that was re-thrown after the fallback chain declined
to retry. -/
inductive Outcome
  | success
  | failure (e : APIError)
deriving DecidableEq, Repr

/-- The corrective rewrites the fallback protocol can apply between
attempts. -/
inductive Correction
  | removeTemp
  | swapToMaxTokens
  | swapToMaxCompletion
  | fallbackModelSub
deriving DecidableEq, Repr

/-- The recursive retry skeleton of `AIService.createStreamingCompletion`
(`src/commands/ai.ts`, lines 155–274), abstracted over the sequence of
errors the provider produces: each attempt consumes the next error of the
sequence; when the sequence is exhausted the attempt succeeds.  The
dispatch order and the guard conditions are exactly those of the `catch`
block:

1. `attempt < 3 &&` unsupported-`temperature`-value → remove temperature;
2. unsupported `max_completion_tokens` → swap to `max_tokens` (no bound);
3. unsupported `max_tokens` → swap to `max_completion_tokens` (no bound);
4. rate limit (429) with a configured, different fallback model →
   substitute the fallback model (no bound);
5. otherwise re-throw.

Returns the outcome and the list of corrections applied, in order. -/
def createStreamingCompletion (fallbackModel : Option String) :
    List APIError → ChatRequest → Nat → Outcome × List Correction
  | [], _, _ => (.success, [])
  | e :: rest, req, attempt =>
    if attempt < 3 && isUnsupportedValueError e "temperature" then
      let r := createStreamingCompletion fallbackModel rest (removeTemperature req) (attempt + 1)
      (r.1, .removeTemp :: r.2)
    else if isUnsupportedTokenParamError e "max_completion_tokens" then
      let r := createStreamingCompletion fallbackModel rest (swapTokenParam req true) (attempt + 1)
      (r.1, .swapToMaxTokens :: r.2)
    else if isUnsupportedTokenParamError e "max_tokens" then
      let r := createStreamingCompletion fallbackModel rest (swapTokenParam req false) (attempt + 1)
      (r.1, .swapToMaxCompletion :: r.2)
    else if isRateLimitError e &&
            (match fallbackModel with
             | some f => !(f = "") && !(req.model = f)
             | none => false) then
      let r := createStreamingCompletion fallbackModel rest
        { req with model := fallbackModel.getD req.model } (attempt + 1)
      (r.1, .fallbackModelSub :: r.2)
    else
      (.failure e, [])

/-- Number of temperature-removal corrections in a correction list. -/
def countTemp (cs : List Correction) : Nat := cs.count .removeTemp

/-- Number of fallback-model substitutions in a correction list. -/
def countFallbackSub (cs : List Correction) : Nat := cs.count .fallbackModelSub

/-! Concrete errors used in witnesses and counterexamples. -/

/-- A provider error carrying `code: "unsupported_value"`,
`param: "temperature"`. -/
def tempValueError : APIError :=
  { status := some 400, err := none, message := none,
    param := some "temperature", code := some "unsupported_value" }

/-- A provider error carrying `code: "unsupported_parameter"`,
`param: "max_completion_tokens"`. -/
def maxCompletionError : APIError :=
  { status := some 400, err := none, message := none,
    param := some "max_completion_tokens", code := some "unsupported_parameter" }

/-- A 429 rate-limit error. -/
def rateLimitError : APIError :=
  { status := some 429, err := none, message := none, param := none, code := none }

/-- A default request, as built by `generateCommitMessage`. -/
def baseRequest : ChatRequest :=
  { model := "zai-org/GLM-4.5-FP8", messages := [],
    max_tokens := none, max_completion_tokens := some 3000,
    temperature := some (1 : ℚ) }

/-! Retry-protocol lemmas. -/

/-- Each corrective retry consumes one provider error, so the number of
corrections never exceeds the number of errors. -/
theorem corrections_length_le (fb : Option String) :
    ∀ (errs : List APIError) (req : ChatRequest) (attempt : Nat),
      (createStreamingCompletion fb errs req attempt).2.length ≤ errs.length := by
  intro errs
  induction errs with
  | nil => intro req attempt; simp [createStreamingCompletion]
  | cons e rest ih =>
    intro req attempt
    simp only [createStreamingCompletion]
    split
    · simpa using Nat.succ_le_succ (ih _ _)
    · split
      · simpa using Nat.succ_le_succ (ih _ _)
      · split
        · simpa using Nat.succ_le_succ (ih _ _)
        · split
          · simpa using Nat.succ_le_succ (ih _ _)
          · simp

/-- The temperature-removal correction is guarded by `attempt < 3` and every
retry increments `attempt`, so at most `3 - attempt` temperature removals
can still happen. -/
theorem countTemp_le_sub (fb : Option String) :
    ∀ (errs : List APIError) (req : ChatRequest) (attempt : Nat),
      countTemp (createStreamingCompletion fb errs req attempt).2 ≤ 3 - attempt := by
  intro errs
  induction errs with
  | nil => intro req attempt; simp [createStreamingCompletion, countTemp]
  | cons e rest ih =>
    intro req attempt
    simp only [createStreamingCompletion]
    split
    · rename_i h
      have hlt : attempt < 3 := by
        rw [Bool.and_eq_true] at h
        exact of_decide_eq_true h.1
      have := ih (removeTemperature req) (attempt + 1)
      simp [countTemp, List.count_cons] at *
      omega
    · split
      · have := ih (swapTokenParam req true) (attempt + 1)
        simp [countTemp, List.count_cons] at *
        omega
      · split
        · have := ih (swapTokenParam req false) (attempt + 1)
          simp [countTemp, List.count_cons] at *
          omega
        · split
          · have := ih { req with model := fb.getD req.model } (attempt + 1)
            simp [countTemp, List.count_cons] at *
            omega
          · simp [countTemp]

/-- Neither token-field rewrite changes the model id. -/
theorem swapTokenParam_model (req : ChatRequest) (t : Bool) :
    (swapTokenParam req t).model = req.model := by
  cases hc : req.max_completion_tokens <;> cases hm : req.max_tokens <;>
    cases t <;> simp [swapTokenParam, hc, hm]

theorem removeTemperature_model (req : ChatRequest) :
    (removeTemperature req).model = req.model := rfl

/-- Once the request already uses the fallback model, no further fallback
substitution happens. -/
theorem countFallbackSub_zero (f : String) :
    ∀ (errs : List APIError) (req : ChatRequest) (attempt : Nat),
      req.model = f →
      countFallbackSub (createStreamingCompletion (some f) errs req attempt).2 = 0 := by
  intro errs
  induction errs with
  | nil => intro req attempt _; simp [createStreamingCompletion, countFallbackSub]
  | cons e rest ih =>
    intro req attempt hm
    simp only [createStreamingCompletion]
    split
    · have := ih (removeTemperature req) (attempt + 1) (by rw [removeTemperature_model, hm])
      simp [countFallbackSub, List.count_cons] at *
      omega
    · split
      · have := ih (swapTokenParam req true) (attempt + 1) (by rw [swapTokenParam_model, hm])
        simp [countFallbackSub, List.count_cons] at *
        omega
      · split
        · have := ih (swapTokenParam req false) (attempt + 1) (by rw [swapTokenParam_model, hm])
          simp [countFallbackSub, List.count_cons] at *
          omega
        · split
          · rename_i h
            exfalso
            rw [Bool.and_eq_true] at h
            have h2 := h.2
            simp only [Bool.and_eq_true, Bool.not_eq_true', decide_eq_false_iff_not] at h2
            exact h2.2 hm
          · simp [countFallbackSub]

/-- The rate-limit substitution is applied at most once per lineage:
afterwards the request's model equals the fallback model and the guard
`request.model !== this.fallbackModel` blocks any further substitution. -/
theorem countFallbackSub_le_one (fb : Option String) :
    ∀ (errs : List APIError) (req : ChatRequest) (attempt : Nat),
      countFallbackSub (createStreamingCompletion fb errs req attempt).2 ≤ 1 := by
  intro errs
  induction errs with
  | nil => intro req attempt; simp [createStreamingCompletion, countFallbackSub]
  | cons e rest ih =>
    intro req attempt
    simp only [createStreamingCompletion]
    split
    · have := ih (removeTemperature req) (attempt + 1)
      simp [countFallbackSub, List.count_cons] at *
      omega
    · split
      · have := ih (swapTokenParam req true) (attempt + 1)
        simp [countFallbackSub, List.count_cons] at *
        omega
      · split
        · have := ih (swapTokenParam req false) (attempt + 1)
          simp [countFallbackSub, List.count_cons] at *
          omega
        · split
          · rename_i h
            rw [Bool.and_eq_true] at h
            have h2 := h.2
            cases fb with
            | none => simp at h2
            | some f =>
              have hz := countFallbackSub_zero f rest
                { req with model := (Option.getD (some f) req.model) } (attempt + 1) rfl
              simp [countFallbackSub, List.count_cons] at *
              omega
          · simp [countFallbackSub]

/-! ## Claim C1 and C6: retry bounds -/

/-- C1 (counterexample).  The claim that `createStreamingCompletion`
terminates "after at most 3 corrective retries" is false: the
token-parameter corrections are not guarded by the attempt counter, so a
sequence of five unsupported-`max_completion_tokens` errors produces five
corrective retries (and then success). -/
theorem C1_retry_bound_counterexample :
    (createStreamingCompletion none (List.replicate 5 maxCompletionError) baseRequest 0).1
        = .success ∧
    (createStreamingCompletion none (List.replicate 5 maxCompletionError) baseRequest 0).2.length
        = 5 ∧
    ¬ ((createStreamingCompletion none (List.replicate 5 maxCompletionError) baseRequest 0).2.length
        ≤ 3) := by
  decide

/-- C1 (amended).  For every finite sequence of provider errors the adapter
terminates with a success or a terminal failure, applying at most one
corrective retry per provider error; the temperature-removal correction is
applied at most 3 times (it alone is guarded by `attempt < 3`), and the
rate-limit fallback-model substitution at most once; but the
token-parameter-swap corrections are bounded only by the length of the
error sequence. -/
theorem C1_retry_bounds (fb : Option String) (errs : List APIError) (req : ChatRequest) :
    (createStreamingCompletion fb errs req 0).2.length ≤ errs.length ∧
    countTemp (createStreamingCompletion fb errs req 0).2 ≤ 3 ∧
    countFallbackSub (createStreamingCompletion fb errs req 0).2 ≤ 1 := by
  refine ⟨corrections_length_le fb errs req 0, ?_, countFallbackSub_le_one fb errs req 0⟩
  simpa using countTemp_le_sub fb errs req 0

/-- C6 (counterexample).  The temperature-removal correction is *not*
applied at most once per request lineage: two consecutive
unsupported-temperature-value errors yield two temperature-removal
retries (the attempt counter only blocks the fourth). -/
theorem C6_temperature_once_counterexample :
    countTemp (createStreamingCompletion none [tempValueError, tempValueError] baseRequest 0).2
        = 2 ∧
    (createStreamingCompletion none [tempValueError, tempValueError] baseRequest 0).1
        = .success := by
  decide

/-- C6 (amended).  Within one request lineage the temperature-removal
correction is applied at most 3 times: it is the only correction guarded by
the attempt counter (`attempt < 3`), and every retry of any kind increments
the counter. -/
theorem C6_temperature_removal_bound (fb : Option String) (errs : List APIError)
    (req : ChatRequest) :
    countTemp (createStreamingCompletion fb errs req 0).2 ≤ 3 := by
  simpa using countTemp_le_sub fb errs req 0

/-! ## The request adapter: streaming aggregation (`src/commands/ai.ts`)

The `for await (const chunk of stream)` loop of `createStreamingCompletion`
(lines 183–238), modelled over the sequence of deltas the stream emits. -/

/-- The progress phase tracked by the streaming loop
(`'waiting' | 'thinking' | 'content'`). -/
inductive StreamPhase
  | waiting
  | thinking
  | content
deriving DecidableEq, Repr

/-- One streaming delta: optional final content and optional
`reasoning_content`. -/
structure StreamDelta where
  content           : Option String
  reasoning_content : Option String
deriving DecidableEq, Repr

/-- JavaScript truthiness of an optional string (`null`/`undefined` and
`""` are falsy). -/
def optTruthy : Option String → Bool
  | some s => !(s = "")
  | none => false

/-- The mutable state of the streaming loop. -/
structure StreamState where
  contentChunks   : List String
  reasoningTokens : Nat
  contentTokens   : Nat
  phase           : StreamPhase
  timerActive     : Bool
deriving DecidableEq, Repr

/-- The `process.stdout.write` progress messages emitted inside the loop
(spinner frame and elapsed time omitted: they depend on wall-clock time,
not on the delta sequence). -/
inductive ProgressEvent
  | thinkingTick (reasoningTokens : Nat)
  | streamingTick (contentTokens : Nat)
  | complete (reasoningTokens contentTokens : Nat)
deriving DecidableEq, Repr

/-- The `if (reasoning)` block of the streaming loop body. -/
def reasoningStep (verbose : Bool) (st : StreamState) (d : StreamDelta) :
    StreamState × List ProgressEvent :=
  if optTruthy d.reasoning_content then
    let st₁ := { st with reasoningTokens := st.reasoningTokens + 1 }
    let st₂ :=
      if st₁.phase = .waiting && st₁.timerActive then
        { st₁ with timerActive := false, phase := .thinking }
      else st₁
    if verbose && st₂.phase = .thinking then
      (st₂, [ProgressEvent.thinkingTick st₂.reasoningTokens])
    else (st₂, [])
  else (st, [])

/-- The `if (content)` block of the streaming loop body. -/
def contentStep (verbose : Bool) (st : StreamState) (d : StreamDelta) :
    StreamState × List ProgressEvent :=
  if optTruthy d.content then
    let st₃ := { st with
                 contentChunks := st.contentChunks ++ [d.content.getD ""],
                 contentTokens := st.contentTokens + 1 }
    let st₄ :=
      if !(st₃.phase = .content) then
        { st₃ with timerActive := false, phase := .content }
      else st₃
    if verbose then (st₄, [ProgressEvent.streamingTick st₄.contentTokens])
    else (st₄, [])
  else (st, [])

/-- One iteration of the streaming loop body: the `if (reasoning)` block
followed by the `if (content)` block. -/
def streamStep (verbose : Bool) (st : StreamState) (d : StreamDelta) :
    StreamState × List ProgressEvent :=
  let r := reasoningStep verbose st d
  let r' := contentStep verbose r.1 d
  (r'.1, r.2 ++ r'.2)

/-- The streaming loop over a whole delta sequence. -/
def streamLoop (verbose : Bool) : StreamState → List StreamDelta →
    StreamState × List ProgressEvent
  | st, [] => (st, [])
  | st, d :: ds =>
    let r := streamStep verbose st d
    let r' := streamLoop verbose r.1 ds
    (r'.1, r.2 ++ r'.2)

/-- The full streaming session of `createStreamingCompletion`: the loop run
from the initial state (phase `waiting`, spinner timer installed only in
verbose mode), the final completion message in verbose mode, and the
aggregated output `contentChunks.join('')`. -/
def runStream (verbose : Bool) (deltas : List StreamDelta) :
    String × List ProgressEvent :=
  let st0 : StreamState :=
    { contentChunks := [], reasoningTokens := 0, contentTokens := 0,
      phase := .waiting, timerActive := verbose }
  let r := streamLoop verbose st0 deltas
  let events :=
    if verbose then
      r.2 ++ [ProgressEvent.complete r.1.reasoningTokens r.1.contentTokens]
    else r.2
  (String.join r.1.contentChunks, events)

/-- The content chunks collected by one loop iteration: the delta's
`content` is appended exactly when it is truthy, regardless of verbosity,
phase or timer state. -/
theorem reasoningStep_chunks (verbose : Bool) (st : StreamState) (d : StreamDelta) :
    (reasoningStep verbose st d).1.contentChunks = st.contentChunks := by
  unfold reasoningStep
  by_cases hr : optTruthy d.reasoning_content <;>
    simp only [hr, if_true, if_false, ite_true, ite_false] <;> split_ifs <;> rfl

theorem contentStep_chunks (verbose : Bool) (st : StreamState) (d : StreamDelta) :
    (contentStep verbose st d).1.contentChunks =
      st.contentChunks ++ (if optTruthy d.content then [d.content.getD ""] else []) := by
  unfold contentStep
  by_cases hc : optTruthy d.content <;>
    simp only [hc, if_true, if_false, ite_true, ite_false] <;> split_ifs <;> simp

theorem streamStep_chunks (verbose : Bool) (st : StreamState) (d : StreamDelta) :
    (streamStep verbose st d).1.contentChunks =
      st.contentChunks ++ (if optTruthy d.content then [d.content.getD ""] else []) := by
  unfold streamStep
  rw [contentStep_chunks, reasoningStep_chunks]

/-- The chunks collected by the loop are the initial chunks followed by the
truthy contents of the deltas, in arrival order. -/
theorem streamLoop_chunks (verbose : Bool) :
    ∀ (deltas : List StreamDelta) (st : StreamState),
      (streamLoop verbose st deltas).1.contentChunks =
        st.contentChunks ++
          deltas.filterMap
            (fun d => if optTruthy d.content then some (d.content.getD "") else none) := by
  intro deltas
  induction deltas with
  | nil => intro st; simp [streamLoop]
  | cons d ds ih =>
    intro st
    simp only [streamLoop, List.filterMap_cons]
    rw [ih, streamStep_chunks]
    by_cases hc : optTruthy d.content <;> simp [hc]

/-- C9 (claim).  The aggregated string returned by the streaming session is
the same whether progress reporting is enabled (`verbose = true`) or
suppressed (`verbose = false`): the verbose flag only influences the
emitted progress events, never the functional result. -/
theorem C9_verbose_does_not_change_output (deltas : List StreamDelta) :
    (runStream true deltas).1 = (runStream false deltas).1 := by
  unfold runStream
  simp only [streamLoop_chunks]

/-! ## The tag lifecycle controller (`src/commands/tag.ts`)

`TagCommand.handleTag` orchestrates tag replacement, note generation, tag
creation and multi-remote publishing.  Every external call (git subprocess,
interactive prompt, the generation provider) is modelled by an environment
supplying its result; the run is summarised as a trace of events plus a
terminal result (`process.exit(1)` paths ↦ `failed`, early `return` after a
declined prompt ↦ `cancelled`, reaching the final success log ↦ `done`). -/

/-- JavaScript `parseInt(s, 10)`: skip leading whitespace, optional sign,
then the longest prefix of decimal digits; `NaN` (here `none`) when no
digit is found. -/
def parseIntJS (l : List Char) : Option Int :=
  let l' := l.dropWhile jsIsWs
  let digitsOf : List Char → Option Nat := fun ds =>
    let digits := ds.takeWhile Char.isDigit
    if digits = [] then none
    else some (digits.foldl (fun n c => n * 10 + (c.toNat - '0'.toNat)) 0)
  match l' with
  | '+' :: rest => (digitsOf rest).map (fun n => (n : Int))
  | '-' :: rest => (digitsOf rest).map (fun n => -(n : Int))
  | _ => (digitsOf l').map (fun n => (n : Int))

/-- JavaScript `toLowerCase` (ASCII, the only case this code base feeds it). -/
def jsToLower (l : List Char) : List Char := l.map Char.toLower

/-- One token of the remote-selection answer is invalid when `parseInt`
yields `NaN` or the index is out of the range `1..remotes.length`
(the test at `tag.ts:962`). -/
def tokenInvalid (remotes : List String) (tok : List Char) : Bool :=
  match parseIntJS tok with
  | none => true
  | some k => k < 1 || k > remotes.length

/-- The selection loop of `TagCommand.selectRemotesForPush`: the first
invalid token rejects the entire selection (`return null`); valid indices
are mapped to remotes, deduplicated, in answer order. -/
def selLoop (remotes : List String) : List (List Char) → List String → Option (List String)
  | [], acc => if acc.length > 0 then some acc else none
  | tok :: rest, acc =>
    match parseIntJS tok with
    | none => none
    | some k =>
      if k < 1 || k > remotes.length then none
      else
        let remote := remotes.getD (k.toNat - 1) ""
        selLoop remotes rest (if acc.contains remote then acc else acc ++ [remote])

/-- `TagCommand.selectRemotesForPush` (`tag.ts:928–973`), as a function of
the remote list and the interactive answer.  `none` models the `null`
return ("skip push"). -/
def selectRemotesForPush (remotes : List String) (answer : String) : Option (List String) :=
  let normalized := jsToLower (jsTrim answer.data)
  if normalized = "n".data || normalized = "no".data || normalized = [] then none
  else if normalized = "all".data then some remotes
  else
    let selections := (splitOnChar ',' normalized).map jsTrim
    selLoop remotes selections []

/-- Digit-run parser used by `incrementPatchVersion`'s `(\d+)` groups:
the maximal (greedy) nonempty digit prefix and the remainder. -/
def parseDigits1 (l : List Char) : Option (List Char × List Char) :=
  let ds := l.takeWhile Char.isDigit
  if ds = [] then none else some (ds, l.drop ds.length)

/-- Numeric value of a digit run (`parseInt(patch, 10)`;
exact here, while JS `number` loses precision beyond 2^53 — irrelevant for
any realistic version number). -/
def natOfDigits (ds : List Char) : Nat :=
  ds.foldl (fun n c => n * 10 + (c.toNat - '0'.toNat)) 0

/-- Captures of `(v?)(\d+)\.(\d+)\.(\d+)(.*)$` (the part of
`incrementPatchVersion`'s pattern after the lazy head group). -/
structure SemverParts where
  vPart  : List Char
  major  : List Char
  minor  : List Char
  patch  : List Char
  tailPart : List Char
deriving DecidableEq, Repr

/-- Parse `(v?)(\d+)\.(\d+)\.(\d+)(.*)$` anchored at the current position.
`v?` is greedy, and backtracking to its empty alternative can never help,
because a position whose first character is `v` cannot start `(\d+)`.
`(.*)$` requires the remainder to be newline-free (`.` does not match
newlines and the pattern has no `m` flag). -/
def semverTailParse (l : List Char) : Option SemverParts :=
  let vSplit : List Char × List Char :=
    match l with
    | 'v' :: rest => (['v'], rest)
    | _ => ([], l)
  match parseDigits1 vSplit.2 with
  | none => none
  | some (major, l2) =>
    match l2 with
    | '.' :: l3 =>
      (match parseDigits1 l3 with
       | none => none
       | some (minor, l4) =>
         match l4 with
         | '.' :: l5 =>
           (match parseDigits1 l5 with
            | none => none
            | some (patch, rest) =>
              if rest.contains '\n' then none
              else some ⟨vSplit.1, major, minor, patch, rest⟩)
         | _ => none)
    | _ => none

/-- The leading lazy group `(.*?-?)?` of `incrementPatchVersion`'s pattern
can capture any newline-free prefix, and the regex engine tries capture
lengths in increasing order (a position whose first character is `-`
cannot start the rest of the pattern, so the greedy `-?` inside never
changes which overall match is found first).  Hence: scan left to right
for the first position where the rest of the pattern matches, stopping at
a newline. -/
def semverScan : List Char → List Char → Option (List Char × SemverParts)
  | acc, l =>
    match semverTailParse l with
    | some parts => some (acc.reverse, parts)
    | none =>
      match l with
      | [] => none
      | c :: rest => if c = '\n' then none else semverScan (c :: acc) rest

/-- `TagCommand.incrementPatchVersion` (`tag.ts:555–601`): match
`^(.*?-?)?(v?)(\d+)\.(\d+)\.(\d+)(.*)$`, add one to the patch component,
and reassemble. -/
def incrementPatchVersion (version : String) : Option String :=
  match semverScan [] version.data with
  | none => none
  | some (pfx, p) =>
    some (String.mk
      (pfx ++ p.vPart ++ p.major ++ '.' :: p.minor ++ '.' ::
        Nat.toDigits 10 (natOfDigits p.patch + 1) ++ p.tailPart))

/-- CLI options of the `tag` command (`TagOptions`). -/
structure TagOptions where
  apiKey  : Option String
  baseUrl : Option String
  model   : Option String
  message : Option String
  baseTag : Option String
  prompt  : Option String

/-- Result shape of `GitService.getLatestTag`. -/
structure GitTagQueryResult where
  success : Bool
  tag     : Option String

/-- Result shape of `GitService.getCommitSummariesSince`. -/
structure GitLogResult where
  success : Bool
  log     : Option String

/-- Result shape of `AIService.generateTagNotes`. -/
structure AINotesResult where
  success : Bool
  notes   : Option String

/-- The environment of one `handleTag` run: the results of every external
call (git subprocesses, interactive prompts, configuration validation, the
generation provider). -/
structure TagEnv where
  latestTag           : GitTagQueryResult
  tagExistsLocal      : String → Bool
  getTagMessage       : String → Option String
  confirmDelete       : Bool
  remoteTagExists     : String → Bool
  confirmRemoteDelete : Bool
  deleteRemoteOk      : Bool
  deleteLocalOk       : Bool
  history             : GitLogResult
  aiConfigOk          : Bool
  aiNotes             : AINotesResult
  confirmCreate       : Bool
  createOk            : Bool
  remotes             : List String
  selectAnswer        : String
  confirmForcePush    : Bool
  forcePushOk         : String → Bool
  pushOk              : String → Bool

/-- Observable events of one `handleTag` run, in execution order. -/
inductive TagEvent
  | getLatestTag
  | queryLocalTag (name : String) (present : Bool)
  | readTagMessage (name : String)
  | promptDeleteLocal (answer : Bool)
  | queryRemoteTag (name : String) (present : Bool)
  | promptDeleteRemote (answer : Bool)
  | deleteRemoteTag (name : String) (ok : Bool)
  | deleteLocalTag (name : String) (ok : Bool)
  | readHistory
  | generateNotes (name log : String) (prev style : Option String)
  | promptCreate (answer : Bool)
  | createTag (name : String) (ok : Bool)
  | promptSelectRemotes (answer : String)
  | promptForcePush (answer : Bool)
  | forcePushTag (name remote : String) (ok : Bool)
  | pushTag (name remote : String) (ok : Bool)
deriving DecidableEq, Repr

/-- Terminal result of one `handleTag` run. -/
inductive TagResult
  | done
  | cancelled
  | failed
deriving DecidableEq, Repr

/-- The plain-push loop (`tag.ts:899–915`): each selected remote is pushed
independently; a failure is reported and does not stop the loop. -/
def pushLoopPlain (name : String) (env : TagEnv) : List String → List TagEvent
  | [] => []
  | r :: rest => .pushTag name r (env.pushOk r) :: pushLoopPlain name env rest

/-- The force-push loop (`tag.ts:881–897`). -/
def pushLoopForce (name : String) (env : TagEnv) : List String → List TagEvent
  | [] => []
  | r :: rest => .forcePushTag name r (env.forcePushOk r) :: pushLoopForce name env rest

/-- The publishing phase (`tag.ts:853–918`): enumerate remotes, let the
user select, decide between plain and force push (`needsForcePush`
is the surviving `remoteTagExists` flag), and push to each selected remote
independently. -/
def pushPhase (name : String) (env : TagEnv) (remoteStillExists : Bool) :
    List TagEvent × TagResult :=
  if env.remotes.length = 0 then ([], .done)
  else
    let ev0 := [TagEvent.promptSelectRemotes env.selectAnswer]
    match selectRemotesForPush env.remotes env.selectAnswer with
    | none => (ev0, .done)
    | some sel =>
      if sel.length > 0 then
        if remoteStillExists then
          if env.confirmForcePush then
            (ev0 ++ TagEvent.promptForcePush true :: pushLoopForce name env sel, .done)
          else (ev0 ++ [TagEvent.promptForcePush false], .cancelled)
        else (ev0 ++ pushLoopPlain name env sel, .done)
      else (ev0, .done)

/-- The message-resolution phase (`tag.ts:735–815`): use the explicit
`--message` verbatim when truthy; otherwise resolve the base tag (explicit
or latest), read a style-reference message from a distinct base tag,
collect the commit history and call `generateTagNotes` with the previous
tag message and the style reference.  `none` models the `process.exit(1)`
failure paths. -/
def messagePhase (name : String) (opts : TagOptions) (env : TagEnv)
    (prevMsg : Option String) : List TagEvent × Option String :=
  let tagMessage := opts.message.map (fun s => String.mk (jsTrim s.data))
  if optTruthy tagMessage then ([], some (tagMessage.getD ""))
  else
    let baseTagOpt := opts.baseTag.map (fun s => String.mk (jsTrim s.data))
    let latestPair : List TagEvent × Option String :=
      if optTruthy baseTagOpt then ([], baseTagOpt)
      else ([TagEvent.getLatestTag],
            if env.latestTag.success && optTruthy env.latestTag.tag then
              env.latestTag.tag
            else none)
    let baseTag := latestPair.2
    let styPair : List TagEvent × Option String :=
      if optTruthy baseTag && !(baseTag.getD "" = name) then
        ([TagEvent.readTagMessage (baseTag.getD "")],
         env.getTagMessage (baseTag.getD ""))
      else ([], none)
    let ev := latestPair.1 ++ styPair.1 ++ [TagEvent.readHistory]
    if !(env.history.success && optTruthy env.history.log) then (ev, none)
    else if !env.aiConfigOk then (ev, none)
    else
      let ev := ev ++ [TagEvent.generateNotes name (env.history.log.getD "")
                        prevMsg styPair.2]
      if env.aiNotes.success && optTruthy env.aiNotes.notes then
        (ev, some (env.aiNotes.notes.getD ""))
      else (ev, none)

/-- Message resolution, creation preview/confirmation, tag creation and
publishing (`tag.ts:735–925`). -/
def createAndPush (name : String) (opts : TagOptions) (env : TagEnv)
    (prevMsg : Option String) (remoteStillExists : Bool) :
    List TagEvent × TagResult :=
  let m := messagePhase name opts env prevMsg
  match m.2 with
  | none => (m.1, .failed)
  | some _ =>
    let ev := m.1 ++ [TagEvent.promptCreate env.confirmCreate]
    if !env.confirmCreate then (ev, .cancelled)
    else
      let ev := ev ++ [TagEvent.createTag name env.createOk]
      if !env.createOk then (ev, .failed)
      else
        let p := pushPhase name env remoteStillExists
        (ev ++ p.1, p.2)

/-- Local tag deletion (`tag.ts:717–732`) followed by the rest of the run. -/
def deleteLocalAndContinue (name : String) (opts : TagOptions) (env : TagEnv)
    (prevMsg : Option String) (remoteStillExists : Bool) :
    List TagEvent × TagResult :=
  let ev := [TagEvent.deleteLocalTag name env.deleteLocalOk]
  if !env.deleteLocalOk then (ev, .failed)
  else
    let r := createAndPush name opts env prevMsg remoteStillExists
    (ev ++ r.1, r.2)

/-- The body of `TagCommand.handleTag` (`tag.ts:666–926`) once the tag name
is resolved: the local/remote replacement protocol guarded by interactive
confirmations, then message resolution, creation and publishing. -/
def handleTagNamed (name : String) (opts : TagOptions) (env : TagEnv) :
    List TagEvent × TagResult :=
  let localExists := env.tagExistsLocal name
  let ev1 := [TagEvent.queryLocalTag name localExists]
  if localExists then
    let prevMsg := env.getTagMessage name
    let ev2 := ev1 ++ [TagEvent.readTagMessage name,
                       TagEvent.promptDeleteLocal env.confirmDelete]
    if !env.confirmDelete then (ev2, .cancelled)
    else
      let remoteExists := env.remoteTagExists name
      let ev3 := ev2 ++ [TagEvent.queryRemoteTag name remoteExists]
      if remoteExists then
        let ev4 := ev3 ++ [TagEvent.promptDeleteRemote env.confirmRemoteDelete]
        if env.confirmRemoteDelete then
          let ev5 := ev4 ++ [TagEvent.deleteRemoteTag name env.deleteRemoteOk]
          if !env.deleteRemoteOk then (ev5, .failed)
          else
            let r := deleteLocalAndContinue name opts env prevMsg false
            (ev5 ++ r.1, r.2)
        else
          let r := deleteLocalAndContinue name opts env prevMsg true
          (ev4 ++ r.1, r.2)
      else
        let r := deleteLocalAndContinue name opts env prevMsg false
        (ev3 ++ r.1, r.2)
  else
    let r := createAndPush name opts env none false
    (ev1 ++ r.1, r.2)

/-- Name resolution (`tag.ts:627–664`): use the trimmed explicit name when
truthy, otherwise auto-increment the latest tag's patch component, failing
when there is no usable latest tag or its version cannot be parsed. -/
def handleTag (tagName : Option String) (opts : TagOptions) (env : TagEnv) :
    List TagEvent × TagResult :=
  let trimmed0 := tagName.map (fun s => String.mk (jsTrim s.data))
  let namePair : List TagEvent × Option String :=
    if optTruthy trimmed0 then ([], some (trimmed0.getD ""))
    else
      if !(env.latestTag.success && optTruthy env.latestTag.tag) then
        ([TagEvent.getLatestTag], none)
      else
        ([TagEvent.getLatestTag], incrementPatchVersion (env.latestTag.tag.getD ""))
  match namePair.2 with
  | none => (namePair.1, .failed)
  | some name =>
    let r := handleTagNamed name opts env
    (namePair.1 ++ r.1, r.2)

/-! ## Claim C2: deletion is guarded by confirmation -/

/-- Is this event one of the two tag-deletion operations? -/
def isDeleteEvent : TagEvent → Bool
  | .deleteLocalTag _ _ => true
  | .deleteRemoteTag _ _ => true
  | _ => false

/-- Trace scanner: every local/remote tag-deletion event must be preceded
by a delete-confirmation prompt that returned `true`. -/
def deleteEventsConfirmed : Bool → List TagEvent → Bool
  | _, [] => true
  | seen, e :: rest =>
    match e with
    | .promptDeleteLocal true => deleteEventsConfirmed true rest
    | .deleteLocalTag _ _ => seen && deleteEventsConfirmed seen rest
    | .deleteRemoteTag _ _ => seen && deleteEventsConfirmed seen rest
    | _ => deleteEventsConfirmed seen rest

/-- Reduction equations for the scanner (stated for concrete event heads). -/
theorem dec_nil (seen : Bool) : deleteEventsConfirmed seen [] = true := rfl

theorem dec_confirm_true (seen : Bool) (l : List TagEvent) :
    deleteEventsConfirmed seen (TagEvent.promptDeleteLocal true :: l) =
      deleteEventsConfirmed true l := rfl

theorem dec_confirm_false (seen : Bool) (l : List TagEvent) :
    deleteEventsConfirmed seen (TagEvent.promptDeleteLocal false :: l) =
      deleteEventsConfirmed seen l := rfl

theorem dec_delete_local (seen : Bool) (n : String) (ok : Bool) (l : List TagEvent) :
    deleteEventsConfirmed seen (TagEvent.deleteLocalTag n ok :: l) =
      (seen && deleteEventsConfirmed seen l) := rfl

theorem dec_delete_remote (seen : Bool) (n : String) (ok : Bool) (l : List TagEvent) :
    deleteEventsConfirmed seen (TagEvent.deleteRemoteTag n ok :: l) =
      (seen && deleteEventsConfirmed seen l) := rfl

/-- Does the trace contain any deletion event? -/
def hasDeleteEvent (l : List TagEvent) : Bool := l.any isDeleteEvent

/-- An event that neither deletes nor upgrades the confirmation state. -/
def neutralEvent : TagEvent → Bool
  | .deleteLocalTag _ _ => false
  | .deleteRemoteTag _ _ => false
  | .promptDeleteLocal a => !a
  | _ => true

theorem deleteEventsConfirmed_true : ∀ l, deleteEventsConfirmed true l = true := by
  intro l
  induction l with
  | nil => rfl
  | cons e rest ih =>
    cases e <;> simp [deleteEventsConfirmed, ih]
    rename_i a
    cases a <;> simp [deleteEventsConfirmed, ih]

theorem deleteEventsConfirmed_cons_neutral {e : TagEvent} (seen : Bool)
    (l : List TagEvent) (h : neutralEvent e = true) :
    deleteEventsConfirmed seen (e :: l) = deleteEventsConfirmed seen l := by
  cases e <;> simp [neutralEvent] at h ⊢ <;> try simp [deleteEventsConfirmed]
  rename_i a
  cases a <;> simp_all [deleteEventsConfirmed]

theorem deleteEventsConfirmed_cons_confirm (seen : Bool) (l : List TagEvent) :
    deleteEventsConfirmed seen (TagEvent.promptDeleteLocal true :: l) = true := by
  simp [deleteEventsConfirmed, deleteEventsConfirmed_true]

theorem deleteEventsConfirmed_of_no_delete :
    ∀ (l : List TagEvent) (seen : Bool), hasDeleteEvent l = false →
      deleteEventsConfirmed seen l = true := by
  intro l
  induction l with
  | nil => intro seen _; rfl
  | cons e rest ih =>
    intro seen h
    rw [show hasDeleteEvent (e :: rest) = (isDeleteEvent e || hasDeleteEvent rest) from rfl,
      Bool.or_eq_false_iff] at h
    have ht := ih seen h.2
    have h1 := h.1
    cases e
    case promptDeleteLocal a =>
      cases a
      · simpa [deleteEventsConfirmed] using ht
      · simpa [deleteEventsConfirmed] using deleteEventsConfirmed_true rest
    case deleteLocalTag n ok => simp [isDeleteEvent] at h1
    case deleteRemoteTag n ok => simp [isDeleteEvent] at h1
    all_goals simpa [deleteEventsConfirmed] using ht

theorem hasDeleteEvent_nil : hasDeleteEvent [] = false := rfl

theorem hasDeleteEvent_cons (e : TagEvent) (l : List TagEvent) :
    hasDeleteEvent (e :: l) = (isDeleteEvent e || hasDeleteEvent l) := rfl

theorem hasDeleteEvent_append (a b : List TagEvent) :
    hasDeleteEvent (a ++ b) = (hasDeleteEvent a || hasDeleteEvent b) := by
  simp [hasDeleteEvent]

theorem hasDelete_pushLoopPlain (name : String) (env : TagEnv) :
    ∀ sel, hasDeleteEvent (pushLoopPlain name env sel) = false := by
  intro sel
  induction sel with
  | nil => rfl
  | cons r rest ih => simp [pushLoopPlain, hasDeleteEvent, isDeleteEvent] at ih ⊢; exact ih

theorem hasDelete_pushLoopForce (name : String) (env : TagEnv) :
    ∀ sel, hasDeleteEvent (pushLoopForce name env sel) = false := by
  intro sel
  induction sel with
  | nil => rfl
  | cons r rest ih => simp [pushLoopForce, hasDeleteEvent, isDeleteEvent] at ih ⊢; exact ih

theorem hasDelete_pushPhase (name : String) (env : TagEnv) (flag : Bool) :
    hasDeleteEvent (pushPhase name env flag).1 = false := by
  unfold pushPhase
  by_cases h0 : env.remotes.length = 0
  · simp [h0, hasDeleteEvent_nil]
  · simp only [h0, if_false, ite_false]
    cases hsel : selectRemotesForPush env.remotes env.selectAnswer with
    | none => simp [hasDeleteEvent_cons, hasDeleteEvent_nil, isDeleteEvent]
    | some sel =>
      by_cases hlen : sel.length > 0 <;> by_cases hflag : flag <;>
        by_cases hfp : env.confirmForcePush <;>
          simp [hlen, hflag, hfp, hasDeleteEvent_append, hasDeleteEvent_cons,
            hasDeleteEvent_nil, isDeleteEvent,
            hasDelete_pushLoopPlain name env sel, hasDelete_pushLoopForce name env sel]

theorem hasDelete_messagePhase (name : String) (opts : TagOptions) (env : TagEnv)
    (prevMsg : Option String) :
    hasDeleteEvent (messagePhase name opts env prevMsg).1 = false := by
  unfold messagePhase
  by_cases hmsg : optTruthy (opts.message.map (fun s => String.mk (jsTrim s.data))) = true
  · simp [hmsg, hasDeleteEvent_nil]
  · simp only [hmsg, if_false, ite_false]
    by_cases hbase : optTruthy (opts.baseTag.map (fun s => String.mk (jsTrim s.data))) = true <;>
      simp only [hbase, if_true, if_false, ite_true, ite_false] <;>
        split_ifs <;>
          simp [hasDeleteEvent_append, hasDeleteEvent_cons, hasDeleteEvent_nil, isDeleteEvent]

theorem hasDelete_createAndPush (name : String) (opts : TagOptions) (env : TagEnv)
    (prevMsg : Option String) (flag : Bool) :
    hasDeleteEvent (createAndPush name opts env prevMsg flag).1 = false := by
  unfold createAndPush
  have hm := hasDelete_messagePhase name opts env prevMsg
  cases hres : (messagePhase name opts env prevMsg).2 with
  | none => simpa [hres] using hm
  | some v =>
    simp only [hres]
    split_ifs <;>
      simp [hasDeleteEvent_append, hasDeleteEvent_cons, hasDeleteEvent_nil,
        isDeleteEvent, hm, hasDelete_pushPhase name env flag]

/-- Once the name is resolved, every deletion in the trace is preceded by
the delete-confirmation prompt returning `true`. -/
theorem deleteGuard_handleTagNamed (name : String) (opts : TagOptions) (env : TagEnv) :
    deleteEventsConfirmed false (handleTagNamed name opts env).1 = true := by
  unfold handleTagNamed
  cases hloc : env.tagExistsLocal name with
  | false =>
    have h := hasDelete_createAndPush name opts env none false
    simp only [Bool.false_eq_true, if_false, ite_false]
    exact deleteEventsConfirmed_of_no_delete _ _ h
  | true =>
    cases hcd : env.confirmDelete with
    | false => rfl
    | true =>
      cases hre : env.remoteTagExists name with
      | false =>
        exact deleteEventsConfirmed_true _
      | true =>
        split_ifs <;>
          first
            | rfl
            | exact deleteEventsConfirmed_true _

/-- C2 (claim).  In every execution trace of the tag operation, each
invocation of `GitService.deleteLocalTag` and of
`GitService.deleteRemoteTag` is preceded by the delete-confirmation
prompt (`confirmTagDelete`) having returned `true`. -/
theorem C2_deletion_guarded_by_confirmation (tagName : Option String)
    (opts : TagOptions) (env : TagEnv) :
    deleteEventsConfirmed false (handleTag tagName opts env).1 = true := by
  unfold handleTag
  by_cases h1 : optTruthy (tagName.map (fun s => String.mk (jsTrim s.data))) = true
  · simp only [h1, if_true, ite_true]
    simpa using deleteGuard_handleTagNamed _ opts env
  · simp only [h1, if_false, ite_false]
    cases hb : (env.latestTag.success && optTruthy env.latestTag.tag) with
    | false => simp [deleteEventsConfirmed]
    | true =>
      cases hv : incrementPatchVersion (env.latestTag.tag.getD "") with
      | none => simp [hv, deleteEventsConfirmed]
      | some nm =>
        have h := deleteGuard_handleTagNamed nm opts env
        simp [hv, deleteEventsConfirmed, h]

/-! ## Claim C8: partial-remote resilience -/

theorem pushLoopPlain_eq_map (name : String) (env : TagEnv) :
    ∀ sel, pushLoopPlain name env sel =
      sel.map (fun r => TagEvent.pushTag name r (env.pushOk r)) := by
  intro sel
  induction sel with
  | nil => rfl
  | cons r rest ih => simp [pushLoopPlain, ih]

theorem pushLoopForce_eq_map (name : String) (env : TagEnv) :
    ∀ sel, pushLoopForce name env sel =
      sel.map (fun r => TagEvent.forcePushTag name r (env.forcePushOk r)) := by
  intro sel
  induction sel with
  | nil => rfl
  | cons r rest ih => simp [pushLoopForce, ih]

/-- C8 (claim).  Whenever the run reaches the publishing phase with a
non-empty selection, every selected remote is pushed (or force pushed) in
selection order with its own reported outcome — even when the push to some
remote `k` fails — and the run still terminates in the `done` state, not
`failed`.  The first implication is the plain-push scenario (fresh tag);
the second is the force-push scenario (remote tag kept, force push
confirmed). -/
theorem C8_partial_remote_resilience
    (name : String) (opts : TagOptions) (env : TagEnv) (sel : List String) (k : Nat)
    (htrim : String.mk (jsTrim name.data) = name)
    (hne : name ≠ "")
    (hmsg : optTruthy (opts.message.map (fun s => String.mk (jsTrim s.data))) = true)
    (hcc : env.confirmCreate = true)
    (hco : env.createOk = true)
    (hrem : env.remotes.length ≠ 0)
    (hsel : selectRemotesForPush env.remotes env.selectAnswer = some sel)
    (hlen : 0 < sel.length)
    (hk : k < sel.length)
    (hfail : env.pushOk (sel.getD k "") = false) :
    (env.tagExistsLocal name = false →
      (handleTag (some name) opts env).2 = .done ∧
      (handleTag (some name) opts env).1 =
        [TagEvent.queryLocalTag name false, TagEvent.promptCreate true,
         TagEvent.createTag name true, TagEvent.promptSelectRemotes env.selectAnswer] ++
          sel.map (fun r => TagEvent.pushTag name r (env.pushOk r))) ∧
    (env.tagExistsLocal name = true → env.confirmDelete = true →
     env.remoteTagExists name = true → env.confirmRemoteDelete = false →
     env.deleteLocalOk = true → env.confirmForcePush = true →
      (handleTag (some name) opts env).2 = .done ∧
      (handleTag (some name) opts env).1 =
        [TagEvent.queryLocalTag name true, TagEvent.readTagMessage name,
         TagEvent.promptDeleteLocal true, TagEvent.queryRemoteTag name true,
         TagEvent.promptDeleteRemote false, TagEvent.deleteLocalTag name true,
         TagEvent.promptCreate true, TagEvent.createTag name true,
         TagEvent.promptSelectRemotes env.selectAnswer, TagEvent.promptForcePush true] ++
          sel.map (fun r => TagEvent.forcePushTag name r (env.forcePushOk r))) := by
  have hname : optTruthy (some name) = true := by simp [optTruthy, hne]
  constructor
  · intro hlocal
    simp [handleTag, handleTagNamed, createAndPush, messagePhase, pushPhase,
      htrim, hname, hmsg, hcc, hco, hrem, hsel, hlen, hlocal,
      pushLoopPlain_eq_map]
  · intro hlocal hcd hre hcrd hdl hfp
    simp [handleTag, handleTagNamed, createAndPush, messagePhase, pushPhase,
      deleteLocalAndContinue, htrim, hname, hmsg, hcc, hco, hrem, hsel, hlen,
      hlocal, hcd, hre, hcrd, hdl, hfp, pushLoopForce_eq_map]

/-- Concrete options for the C8 witness: an explicit tag message. -/
def wOptsC8 : TagOptions :=
  { apiKey := none, baseUrl := none, model := none,
    message := some "release notes", baseTag := none, prompt := none }

/-- Concrete environment for the C8 plain-push scenario: three remotes all
selected (`all`), push to `backup` fails. -/
def wEnvC8 : TagEnv :=
  { latestTag := ⟨false, none⟩, tagExistsLocal := fun _ => false,
    getTagMessage := fun _ => none, confirmDelete := false,
    remoteTagExists := fun _ => false, confirmRemoteDelete := false,
    deleteRemoteOk := true, deleteLocalOk := true,
    history := ⟨false, none⟩, aiConfigOk := true, aiNotes := ⟨false, none⟩,
    confirmCreate := true, createOk := true,
    remotes := ["origin", "backup", "mirror"], selectAnswer := "all",
    confirmForcePush := false, forcePushOk := fun _ => true,
    pushOk := fun r => !(r = "backup") }

/-- Concrete environment for the C8 force-push scenario: the remote tag is
kept (remote deletion declined), force push confirmed, force push to
`backup` fails. -/
def wEnvC8b : TagEnv :=
  { wEnvC8 with
    tagExistsLocal := fun _ => true, confirmDelete := true,
    remoteTagExists := fun _ => true, confirmRemoteDelete := false,
    confirmForcePush := true, forcePushOk := fun r => !(r = "backup") }

theorem C8_partial_remote_resilience_witness :
    ((handleTag (some "v1.0.0") wOptsC8 wEnvC8).2 = .done ∧
     (handleTag (some "v1.0.0") wOptsC8 wEnvC8).1 =
       [TagEvent.queryLocalTag "v1.0.0" false, TagEvent.promptCreate true,
        TagEvent.createTag "v1.0.0" true, TagEvent.promptSelectRemotes "all",
        TagEvent.pushTag "v1.0.0" "origin" true,
        TagEvent.pushTag "v1.0.0" "backup" false,
        TagEvent.pushTag "v1.0.0" "mirror" true]) ∧
    ((handleTag (some "v1.0.0") wOptsC8 wEnvC8b).2 = .done ∧
     (handleTag (some "v1.0.0") wOptsC8 wEnvC8b).1 =
       [TagEvent.queryLocalTag "v1.0.0" true, TagEvent.readTagMessage "v1.0.0",
        TagEvent.promptDeleteLocal true, TagEvent.queryRemoteTag "v1.0.0" true,
        TagEvent.promptDeleteRemote false, TagEvent.deleteLocalTag "v1.0.0" true,
        TagEvent.promptCreate true, TagEvent.createTag "v1.0.0" true,
        TagEvent.promptSelectRemotes "all", TagEvent.promptForcePush true,
        TagEvent.forcePushTag "v1.0.0" "origin" true,
        TagEvent.forcePushTag "v1.0.0" "backup" false,
        TagEvent.forcePushTag "v1.0.0" "mirror" true]) := by
  constructor
  · have h := (C8_partial_remote_resilience "v1.0.0" wOptsC8 wEnvC8
      ["origin", "backup", "mirror"] 1 (by decide) (by decide) (by decide)
      (by decide) (by decide) (by decide) (by decide) (by decide) (by decide)
      (by decide)).1 rfl
    exact ⟨h.1, by rw [h.2]; decide⟩
  · have h := (C8_partial_remote_resilience "v1.0.0" wOptsC8 wEnvC8b
      ["origin", "backup", "mirror"] 1 (by decide) (by decide) (by decide)
      (by decide) (by decide) (by decide) (by decide) (by decide) (by decide)
      (by decide)).2 rfl rfl rfl rfl rfl rfl
    exact ⟨h.1, by rw [h.2]; decide⟩

/-! ## Claim C10: an invalid selection token skips the push entirely -/

/-- One invalid token anywhere in the selection list makes the selection
loop return `null`. -/
theorem selLoop_none_of_invalid (remotes : List String) :
    ∀ (toks : List (List Char)) (acc : List String),
      (∃ t ∈ toks, tokenInvalid remotes t = true) →
      selLoop remotes toks acc = none := by
  intro toks
  induction toks with
  | nil => intro acc h; rcases h with ⟨t, ht, _⟩; cases ht
  | cons t rest ih =>
    intro acc h
    cases hp : parseIntJS t with
    | none => simp [selLoop, hp]
    | some kk =>
      by_cases hr : kk < 1 || kk > remotes.length
      · simp [selLoop, hp, hr]
      · rcases h with ⟨t', ht', hinv⟩
        rcases List.mem_cons.mp ht' with h1 | h2
        · exfalso
          rw [h1] at hinv
          rw [tokenInvalid, hp] at hinv
          exact absurd hinv (by simpa using hr)
        · simp only [selLoop, hp]
          rw [if_neg (by simpa using hr)]
          exact ih _ ⟨t', h2, hinv⟩

/-- With no special answer (`n`/`no`/empty/`all`) and at least one invalid
token, `selectRemotesForPush` rejects the whole selection. -/
theorem selectRemotesForPush_none_of_invalid (remotes : List String) (answer : String)
    (hn : jsToLower (jsTrim answer.data) ≠ "n".data)
    (hno : jsToLower (jsTrim answer.data) ≠ "no".data)
    (hempty : jsToLower (jsTrim answer.data) ≠ [])
    (hall : jsToLower (jsTrim answer.data) ≠ "all".data)
    (hinv : ∃ t ∈ (splitOnChar ',' (jsToLower (jsTrim answer.data))).map jsTrim,
              tokenInvalid remotes t = true) :
    selectRemotesForPush remotes answer = none := by
  unfold selectRemotesForPush
  rw [if_neg (by simp [hn, hno, hempty]), if_neg (by simp [hall])]
  exact selLoop_none_of_invalid remotes _ [] hinv

/-- C10 (claim).  If any comma-separated token of the remote-selection
answer is invalid (`parseInt` NaN, index below 1 or above the number of
remotes), the whole selection is rejected (`null`), no push — not even for
the valid tokens — is performed, and the tag operation still terminates in
the `done` state. -/
theorem C10_invalid_selection_skips_push
    (name : String) (opts : TagOptions) (env : TagEnv)
    (htrim : String.mk (jsTrim name.data) = name)
    (hne : name ≠ "")
    (hmsg : optTruthy (opts.message.map (fun s => String.mk (jsTrim s.data))) = true)
    (hcc : env.confirmCreate = true)
    (hco : env.createOk = true)
    (hrem : env.remotes.length ≠ 0)
    (hlocal : env.tagExistsLocal name = false)
    (hn : jsToLower (jsTrim env.selectAnswer.data) ≠ "n".data)
    (hno : jsToLower (jsTrim env.selectAnswer.data) ≠ "no".data)
    (hempty : jsToLower (jsTrim env.selectAnswer.data) ≠ [])
    (hall : jsToLower (jsTrim env.selectAnswer.data) ≠ "all".data)
    (hinv : ∃ t ∈ (splitOnChar ',' (jsToLower (jsTrim env.selectAnswer.data))).map jsTrim,
              tokenInvalid env.remotes t = true) :
    selectRemotesForPush env.remotes env.selectAnswer = none ∧
    (handleTag (some name) opts env).2 = .done ∧
    (handleTag (some name) opts env).1 =
      [TagEvent.queryLocalTag name false, TagEvent.promptCreate true,
       TagEvent.createTag name true, TagEvent.promptSelectRemotes env.selectAnswer] := by
  have hsel := selectRemotesForPush_none_of_invalid env.remotes env.selectAnswer
    hn hno hempty hall hinv
  have hname : optTruthy (some name) = true := by simp [optTruthy, hne]
  refine ⟨hsel, ?_, ?_⟩ <;>
    simp [handleTag, handleTagNamed, createAndPush, messagePhase, pushPhase,
      htrim, hname, hmsg, hcc, hco, hrem, hsel, hlocal]

/-- Concrete environment for the C10 witness: answer `1,0` — token `1` is
valid, token `0` is below 1, so the whole selection is rejected. -/
def wEnvC10 : TagEnv :=
  { wEnvC8 with selectAnswer := "1,0" }

theorem C10_invalid_selection_skips_push_witness :
    selectRemotesForPush wEnvC10.remotes wEnvC10.selectAnswer = none ∧
    (handleTag (some "v1.0.0") wOptsC8 wEnvC10).2 = .done ∧
    (handleTag (some "v1.0.0") wOptsC8 wEnvC10).1 =
      [TagEvent.queryLocalTag "v1.0.0" false, TagEvent.promptCreate true,
       TagEvent.createTag "v1.0.0" true, TagEvent.promptSelectRemotes "1,0"] := by
  have h := C10_invalid_selection_skips_push "v1.0.0" wOptsC8 wEnvC10
    (by decide) (by decide) (by decide) (by decide) (by decide) (by decide)
    (by decide) (by decide) (by decide) (by decide) (by decide)
    (by decide)
  exact ⟨h.1, h.2.1, by rw [h.2.2]; rfl⟩

/-! ## Claim C7: the tag-notes request and its references
(`AIService.generateTagNotes`, `src/prompts/tag.ts`) -/

/-- `TagPromptLanguage = 'ko' | 'en'`. -/
inductive TagPromptLanguage | ko | en
deriving DecidableEq, Repr

/-- `generateTagPrompt` (`src/prompts/tag.ts`): the system prompt of the
tag-notes request.  It receives only *booleans* for the two references
(`isImprovement = !!previousMessage`, `hasStyleReference =
!!styleReference`), never their text. -/
def generateTagPrompt (tagName : String) (customInstructions : String)
    (language : TagPromptLanguage) (isImprovement hasStyleReference : Bool) : String :=
  let titleInstruction :=
    match language with
    | .ko => "첫 줄에 버전 \"" ++ tagName ++ "\"을 제목으로 작성하세요."
    | .en => "Write the version \"" ++ tagName ++ "\" as the title on the first line."
  let summaryInstruction :=
    match language with
    | .ko => "제목 다음 줄에 이번 릴리즈의 전체적인 영향을 요약하는 한 문장을 작성하세요."
    | .en => "On the line after the title, write a one-sentence summary capturing the overall impact of this release."
  let listInstruction :=
    match language with
    | .ko => "요약 후 빈 줄을 두고, 각 카테고리별로 변경사항을 나열하세요: 새로운 기능, 버그 수정, 개선사항. 각 항목은 \"- \" 로 시작합니다."
    | .en => "After the summary, leave a blank line, then list changes by category: New Features, Bug Fixes, Improvements. Each item starts with \"- \"."
  let categoryFormat :=
    match language with
    | .ko => "카테고리 형식:\n### 새로운 기능\n- 변경사항 1\n- 변경사항 2\n\n### 버그 수정\n- 수정사항 1\n\n### 개선사항\n- 개선사항 1"
    | .en => "Category format:\n### New Features\n- Change 1\n- Change 2\n\n### Bug Fixes\n- Fix 1\n\n### Improvements\n- Improvement 1"
  let emptyCategoryInstruction :=
    match language with
    | .ko => "변경사항이 없는 카테고리는 생략하세요."
    | .en => "Omit categories with no changes."
  let noChangesInstruction :=
    match language with
    | .ko => "변경사항이 전혀 없으면 \"변경 사항 없음\"이라고 작성하세요."
    | .en => "If no changes exist at all, state \"No changes to report.\""
  let outputLanguageLine :=
    match language with
    | .ko => "릴리즈 노트를 한국어로 작성하세요."
    | .en => "Write the release notes in English."
  let improvementInstruction :=
    if isImprovement then
      match language with
      | .ko => "\n## 개선 모드\n이전 릴리즈 노트가 제공됩니다. 이를 참고하여:\n- 기존 내용의 구조와 스타일을 유지하면서 개선하세요.\n- 누락된 변경사항이 있으면 추가하세요.\n- 불필요하거나 중복된 내용은 제거하세요.\n- 더 명확하고 사용자 친화적인 표현으로 다듬으세요.\n"
      | .en => "\n## Improvement Mode\nPrevious release notes are provided. Use them as reference to:\n- Maintain the structure and style while improving the content.\n- Add any missing changes from the commit log.\n- Remove unnecessary or redundant content.\n- Refine the language to be clearer and more user-friendly.\n"
    else ""
  let styleReferenceInstruction :=
    if hasStyleReference && !isImprovement then
      match language with
      | .ko => "\n## 스타일 참조\n이전 태그의 릴리즈 노트가 스타일 참조용으로 제공됩니다.\n- 제공된 형식과 구조를 따르세요.\n- 제목, 카테고리, 항목 스타일을 일관되게 유지하세요.\n- 언어 톤과 상세도 수준을 맞추세요.\n"
      | .en => "\n## Style Reference\nA previous tag\x27s release notes are provided as style reference.\n- Follow the provided format and structure.\n- Maintain consistency in title, categories, and item styles.\n- Match the language tone and level of detail.\n"
    else ""
  "You are an experienced release manager. Produce clear, user-facing release notes in GitHub Release style.\n\n## Objective\n" ++
    (if isImprovement then
      "Improve the existing release notes for " ++ tagName ++ " based on the commit history and previous notes."
     else
      "Create release notes for " ++ tagName ++ " that describe the meaningful changes since the previous release.") ++
    "\n\n## Input Context\n- Target tag to publish: " ++ tagName ++
    "\n- Commit history between the previous tag and " ++ tagName ++ " will be supplied in the user message.\n" ++
    (if isImprovement then "- Previous release notes are provided for improvement." else "") ++ "\n" ++
    (if hasStyleReference && !isImprovement then "- Style reference from previous tag is provided." else "") ++ "\n" ++
    improvementInstruction ++ styleReferenceInstruction ++ "\n" ++
    (if !(customInstructions = "") then "## Additional Instructions\n" ++ customInstructions ++ "\n" else "") ++
    "\n## Output Format (GitHub Release Style)\n" ++
    titleInstruction ++ "\n" ++ summaryInstruction ++ "\n" ++ listInstruction ++ "\n\n" ++
    categoryFormat ++ "\n\n## Rules\n- " ++ outputLanguageLine ++ "\n- " ++
    emptyCategoryInstruction ++ "\n- " ++ noChangesInstruction ++
    "\n- Use concise descriptions; do not copy commit messages verbatim.\n- Do not invent changes beyond what appears in the commit log.\n- Use markdown formatting (###, -, etc.) as shown in the category format.\n- Return only the release notes content with no surrounding commentary."

/-- The `userContent` built by `AIService.generateTagNotes`
(`ai.ts:456–464`): the style reference is appended only when there is *no*
previous message; the previous message is appended whenever present. -/
def tagNotesUserContent (commitLog : String)
    (previousMessage styleReference : Option String) : String :=
  let base := "Commit log:\n" ++ commitLog
  let base :=
    if optTruthy styleReference && !(optTruthy previousMessage) then
      base ++ "\n\n---\nStyle reference (follow this format):\n" ++ styleReference.getD ""
    else base
  if optTruthy previousMessage then
    base ++ "\n\n---\nPrevious release notes for this tag (improve upon this):\n" ++
      previousMessage.getD ""
  else base

/-- The chat-completion request built by `AIService.generateTagNotes`
(`ai.ts:440–479`): system prompt from `generateTagPrompt` (booleans only),
user message `userContent`, `max_completion_tokens: 3000`. -/
def generateTagNotesRequest (model : String) (language : TagPromptLanguage)
    (tagName commitLog : String) (extraInstructions : Option String)
    (previousMessage styleReference : Option String) : ChatRequest :=
  let customInstructions :=
    match extraInstructions with
    | some s =>
      if 0 < (String.mk (jsTrim s.data)).length then String.mk (jsTrim s.data) else ""
    | none => ""
  { model := model,
    messages :=
      [⟨.system, generateTagPrompt tagName customInstructions language
                   (optTruthy previousMessage) (optTruthy styleReference)⟩,
       ⟨.user, tagNotesUserContent commitLog previousMessage styleReference⟩],
    max_tokens := none, max_completion_tokens := some 3000, temperature := none }

set_option maxRecDepth 10000 in
/-- C7 (counterexample).  With both references present, the style-reference
text does not occur anywhere in the provider call's content (neither
message contains it — its distinctive character `ζ` never appears in either
message); only the previous message is attached. -/
theorem C7_both_references_counterexample :
    (∀ m ∈ (generateTagNotesRequest "m" .en "v1.1.0" "- fix parser" none
        (some "PREVNOTESξ") (some "STYLEREFξζ")).messages,
      ¬ ("STYLEREFξζ".data <:+: m.content.data)) ∧
    (∃ m ∈ (generateTagNotesRequest "m" .en "v1.1.0" "- fix parser" none
        (some "PREVNOTESξ") (some "STYLEREFξζ")).messages,
      "PREVNOTESξ".data <:+: m.content.data) := by
  constructor
  · intro m hm hin
    have hle := hin.count_le 'ζ'
    have hcnt : ("STYLEREFξζ".data).count 'ζ' = 1 := by decide
    rw [hcnt] at hle
    simp only [generateTagNotesRequest] at hm
    rcases List.mem_cons.mp hm with h | h
    · subst h; exact absurd hle (by decide)
    · rcases List.mem_cons.mp h with h2 | h2
      · subst h2; exact absurd hle (by decide)
      · cases h2
  · refine ⟨⟨.user, tagNotesUserContent "- fix parser"
      (some "PREVNOTESξ") (some "STYLEREFξζ")⟩, ?_, by decide⟩
    simp only [generateTagNotesRequest]
    exact List.mem_cons_of_mem _ (List.mem_cons_self _ _)

/-- C7 (amended).  When no explicit message is supplied and both a previous
message and a distinct base tag's message exist (both non-empty), only the
previous message is attached to the request content: the request is
entirely independent of the style-reference *text* (only its truthiness
reaches the prompt generator), and the style text is attached to the user
content exactly when no previous message exists. -/
theorem C7_style_reference_attachment (model : String) (language : TagPromptLanguage)
    (tagName commitLog : String) (extra : Option String) (p s s' : String)
    (hp : p ≠ "") (hs : s ≠ "") (hs' : s' ≠ "") :
    generateTagNotesRequest model language tagName commitLog extra (some p) (some s) =
      generateTagNotesRequest model language tagName commitLog extra (some p) (some s') ∧
    tagNotesUserContent commitLog (some p) (some s) =
      "Commit log:\n" ++ commitLog ++
        "\n\n---\nPrevious release notes for this tag (improve upon this):\n" ++ p ∧
    tagNotesUserContent commitLog none (some s) =
      "Commit log:\n" ++ commitLog ++
        "\n\n---\nStyle reference (follow this format):\n" ++ s := by
  refine ⟨?_, ?_, ?_⟩ <;>
    simp [generateTagNotesRequest, tagNotesUserContent, optTruthy, hp, hs, hs']

theorem C7_style_reference_attachment_witness :
    generateTagNotesRequest "m" .en "v1.1.0" "- fix parser" none
        (some "PREV") (some "STYLEA") =
      generateTagNotesRequest "m" .en "v1.1.0" "- fix parser" none
        (some "PREV") (some "STYLEB") ∧
    tagNotesUserContent "- fix parser" (some "PREV") (some "STYLEA") =
      "Commit log:\n- fix parser\n\n---\nPrevious release notes for this tag (improve upon this):\nPREV" := by
  have h := C7_style_reference_attachment "m" .en "v1.1.0" "- fix parser" none
    "PREV" "STYLEA" "STYLEB" (by decide) (by decide) (by decide)
  exact ⟨h.1, by rw [h.2.1]; rfl⟩

/-! ## The message normalizer (`AIService.generateCommitMessage` /
`AIService.cleanMessage`, `src/commands/ai.ts` 279–306 and 337–425)

Raw text is modelled as `List Char`.  Each JavaScript global regex
`replace` is modelled by `scanReplace` with a dedicated `tryX` matcher that
replicates that pattern's exact semantics. -/

/-- One global `String.prototype.replace`: at each position try the
pattern; on a match emit the replacement and resume after the matched text
(matches never overlap), otherwise copy one character.  `fuel` bounds the
recursion; every pattern used here consumes at least one character, so
`fuel = input.length` suffices. -/
def scanReplace (tryMatch : List Char → Option (List Char × List Char)) :
    Nat → List Char → List Char
  | 0, l => l
  | _ + 1, [] => []
  | fuel + 1, c :: rest =>
    match tryMatch (c :: rest) with
    | some (rep, after) => rep ++ scanReplace tryMatch fuel after
    | none => c :: scanReplace tryMatch fuel rest

/-- JavaScript `\w` (word character). -/
def isWordChar (c : Char) : Bool :=
  ('a' ≤ c && c ≤ 'z') || ('A' ≤ c && c ≤ 'Z') || ('0' ≤ c && c ≤ '9') || c = '_'

/-- Case-insensitive literal match (pattern given in lower case), returning
the rest of the input. -/
def matchLitCI : List Char → List Char → Option (List Char)
  | [], l => some l
  | _ :: _, [] => none
  | p :: ps, c :: cs => if c.toLower = p then matchLitCI ps cs else none

/-- Case-sensitive literal match, returning the rest of the input. -/
def matchLit : List Char → List Char → Option (List Char)
  | [], l => some l
  | _ :: _, [] => none
  | p :: ps, c :: cs => if c = p then matchLit ps cs else none

/-- `(?:antml:)?NAME` (case-insensitive): the optional namespace is tried
greedily; since `antml:` and the tag names start with different letters, at
most one alternative can apply. -/
def matchThinkName (allowNs : Bool) (nm : List Char) (l : List Char) :
    Option (List Char) :=
  if allowNs then
    match matchLitCI ('a' :: 'n' :: 't' :: 'm' :: 'l' :: ':' :: []) l with
    | some r =>
      match matchLitCI nm r with
      | some r2 => some r2
      | none => matchLitCI nm l
    | none => matchLitCI nm l
  else matchLitCI nm l

/-- `\b` right after a word character: the next character, if any, is not a
word character. -/
def checkWordBoundary : List Char → Bool
  | [] => true
  | c :: _ => !isWordChar c

/-- `[^>]*>`: consume everything up to and including the first `>`. -/
def matchUntilGt (l : List Char) : Option (List Char) :=
  match l.dropWhile (fun c => !(c = '>')) with
  | c :: rest => if c = '>' then some rest else none
  | [] => none

/-- The opening tag `<\s*(?:antml:)?NAME\b[^>]*>`. -/
def matchOpenTag (allowNs : Bool) (nm : List Char) (l : List Char) :
    Option (List Char) :=
  match l with
  | c :: l1 =>
    if c = '<' then
      match matchThinkName allowNs nm (l1.dropWhile jsIsWs) with
      | some r => if checkWordBoundary r then matchUntilGt r else none
      | none => none
    else none
  | [] => none

/-- The closing tag `<\s*\/\s*(?:antml:)?NAME\s*>`. -/
def matchCloseTag (allowNs : Bool) (nm : List Char) (l : List Char) :
    Option (List Char) :=
  match l with
  | c :: l1 =>
    if c = '<' then
      match l1.dropWhile jsIsWs with
      | c2 :: l2 =>
        if c2 = '/' then
          match matchThinkName allowNs nm (l2.dropWhile jsIsWs) with
          | some r =>
            match r.dropWhile jsIsWs with
            | c3 :: rest => if c3 = '>' then some rest else none
            | [] => none
          | none => none
        else none
      | [] => none
    else none
  | [] => none

/-- The lazy body `[\s\S]*?` followed by a closing tag: the earliest
position where the closing tag matches. -/
def findCloseFrom (close : List Char → Option (List Char)) :
    Nat → List Char → Option (List Char)
  | 0, _ => none
  | fuel + 1, l =>
    match close l with
    | some rest => some rest
    | none =>
      match l with
      | [] => none
      | _ :: t => findCloseFrom close fuel t

/-- A whole `<NAME ...> ... </NAME>` block (lazy body), replaced by the
empty string. -/
def tryThinkBlock (allowNs : Bool) (nm : List Char) (l : List Char) :
    Option (List Char × List Char) :=
  match matchOpenTag allowNs nm l with
  | some afterOpen =>
    match findCloseFrom (matchCloseTag allowNs nm) (afterOpen.length + 1) afterOpen with
    | some rest => some ([], rest)
    | none => none
  | none => none

/-- A stray tag `<\/?\s*(?:antml:)?NAME\b[^>]*>`, replaced by the empty
string. -/
def tryStrayTag (allowNs : Bool) (nm : List Char) (l : List Char) :
    Option (List Char × List Char) :=
  match l with
  | c :: l1 =>
    if c = '<' then
      let l2 := match l1 with
                | c2 :: t => if c2 = '/' then t else l1
                | [] => l1
      match matchThinkName allowNs nm (l2.dropWhile jsIsWs) with
      | some r =>
        if checkWordBoundary r then (matchUntilGt r).map (fun rest => ([], rest))
        else none
      | none => none
    else none
  | [] => none

/-- `<[^>]+>`, replaced by the empty string. -/
def tryAnyTag (l : List Char) : Option (List Char × List Char) :=
  match l with
  | c :: l1 =>
    if c = '<' then
      match l1 with
      | c2 :: _ =>
        if c2 = '>' then none
        else (matchUntilGt l1).map (fun rest => ([], rest))
      | [] => none
    else none
  | [] => none

/-- The lazy inner of `\*\*(.*?)\*\*` (or `__(.*?)__`): earliest closing
delimiter, newline-free inner (possibly empty). -/
def findDelimClose (delim : List Char) : Nat → List Char → List Char →
    Option (List Char × List Char)
  | 0, _, _ => none
  | fuel + 1, acc, l =>
    match matchLit delim l with
    | some rest => some (acc.reverse, rest)
    | none =>
      match l with
      | [] => none
      | c :: t => if c = '\n' then none else findDelimClose delim fuel (c :: acc) t

/-- `\*\*(.*?)\*\*` (resp. `__(.*?)__`), replaced by the captured inner. -/
def tryEmphasis (delim : List Char) (l : List Char) :
    Option (List Char × List Char) :=
  match matchLit delim l with
  | some r =>
    match findDelimClose delim (r.length + 1) [] r with
    | some (inner, rest) => some (inner, rest)
    | none => none
  | none => none

/-- `` `([^`]+)` ``, replaced by the captured inner. -/
def tryBacktickCode (l : List Char) : Option (List Char × List Char) :=
  match l with
  | c :: rest =>
    if c = '\x60' then
      let inner := rest.takeWhile (fun c => !(c = '\x60'))
      match rest.drop inner.length with
      | c2 :: after =>
        if c2 = '\x60' && !(inner = []) then some (inner, after) else none
      | [] => none
    else none
  | [] => none

/-- `[\t\r]+`, replaced by the empty string. -/
def tryTabsCRs (l : List Char) : Option (List Char × List Char) :=
  match l with
  | c :: _ =>
    if c = '\t' || c = '\r' then
      let run := l.takeWhile (fun c => c = '\t' || c = '\r')
      some ([], l.drop run.length)
    else none
  | [] => none

/-- `\n{3,}`, replaced by exactly two newlines. -/
def tryNewlines3 (l : List Char) : Option (List Char × List Char) :=
  match l with
  | c :: _ =>
    if c = '\n' then
      let run := l.takeWhile (fun c => c = '\n')
      if 3 ≤ run.length then some (['\n', '\n'], l.drop run.length) else none
    else none
  | [] => none

/-- `AIService.cleanMessage` (`ai.ts:279–306`): remove think/thinking
blocks and stray tags, remove remaining XML/HTML-like tags, strip Markdown
emphasis and backtick wrapping, remove tabs and carriage returns, collapse
3+ newlines to two, and trim. -/
def cleanMessage (message : List Char) : List Char :=
  if message = [] then message
  else
    let c1 := scanReplace (tryThinkBlock true ('t' :: 'h' :: 'i' :: 'n' :: 'k' :: []))
                message.length message
    let c2 := scanReplace
                (tryThinkBlock false ('t' :: 'h' :: 'i' :: 'n' :: 'k' :: 'i' :: 'n' :: 'g' :: []))
                c1.length c1
    let c3 := scanReplace (tryStrayTag true ('t' :: 'h' :: 'i' :: 'n' :: 'k' :: []))
                c2.length c2
    let c4 := scanReplace
                (tryStrayTag false ('t' :: 'h' :: 'i' :: 'n' :: 'k' :: 'i' :: 'n' :: 'g' :: []))
                c3.length c3
    let c5 := scanReplace tryAnyTag c4.length c4
    let c6 := scanReplace (tryEmphasis ('*' :: '*' :: [])) c5.length c5
    let c7 := scanReplace (tryEmphasis ('_' :: '_' :: [])) c6.length c6
    let c8 := scanReplace tryBacktickCode c7.length c7
    let c9 := scanReplace tryTabsCRs c8.length c8
    let c10 := scanReplace tryNewlines3 c9.length c9
    jsTrim c10

/-! ### The conventional-commit header patterns -/

/-- The fixed 11-value type enum of the header grammar, in the source's
alternation order.  No element is a prefix of another, so at most one can
match at a given position and the alternation is deterministic. -/
def commitTypes : List (List Char) :=
  ["feat".data, "fix".data, "docs".data, "style".data, "refactor".data,
   "test".data, "chore".data, "build".data, "ci".data, "perf".data,
   "revert".data]

/-- `(feat|fix|…|revert)` with the matched alternative captured. -/
def matchTypeC : List (List Char) → List Char → Option (List Char × List Char)
  | [], _ => none
  | t :: ts, l =>
    match matchLit t l with
    | some r => some (t, r)
    | none => matchTypeC ts l

/-- `!?` (greedy; deterministic because the following `:` is not `!`). -/
def optBang (l : List Char) : List Char :=
  match l with
  | c :: r => if c = '!' then r else l
  | [] => l

/-- `.+` anchored here: at least one non-newline character. -/
def anyNonNl : List Char → Bool
  | [] => false
  | c :: _ => !(c = '\n')

/-- `: .+` (the check at `ai.ts:351` uses a literal space). -/
def colonSpaceContent (l : List Char) : Bool :=
  match l with
  | c :: r =>
    if c = ':' then
      match r with
      | c2 :: r2 => if c2 = ' ' then anyNonNl r2 else false
      | [] => false
    else false
  | [] => false

/-- `\s+.+` with backtracking: a nonempty whitespace run, then at least one
non-newline character (which may itself be whitespace). -/
def wsThenContentAux : List Char → Bool
  | [] => false
  | c :: rest => !(c = '\n') || (jsIsWs c && wsThenContentAux rest)

def wsRunThenContent : List Char → Bool
  | [] => false
  | c :: rest => jsIsWs c && wsThenContentAux rest

/-- `:\s+.+` (the `headerPattern` at `ai.ts:369`). -/
def colonWsContent (l : List Char) : Bool :=
  match l with
  | c :: r => if c = ':' then wsRunThenContent r else false
  | [] => false

/-- `:\s*$` (the `typeOnlyPattern` at `ai.ts:370`). -/
def colonWsEnd (l : List Char) : Bool :=
  match l with
  | c :: r => if c = ':' then (r.dropWhile jsIsWs) = [] else false
  | [] => false

/-- `\(.+\)` followed by a continuation, as a Boolean existence check (the
inner `.+` is greedy, but for a yes/no match any closing parenthesis
works).  The first scope character has already been consumed by the
caller. -/
def scopeRun (cont : List Char → Bool) : Nat → List Char → Bool
  | 0, _ => false
  | fuel + 1, l =>
    match l with
    | [] => false
    | c :: rest =>
      (if c = ')' then cont rest else false) ||
        (if c = '\n' then false else scopeRun cont fuel rest)

/-- `(\(.+\))?!?SEP…` after the type: the optional scope group (greedy,
with full backtracking), then an optional `!`, then the separator
pattern. -/
def afterTypeMatch (sep : List Char → Bool) (r : List Char) : Bool :=
  (match r with
   | c :: c2 :: rest =>
     if c = '(' && !(c2 = '\n') then
       scopeRun (fun rr => sep (optBang rr)) (rest.length + 1) rest
     else false
   | _ => false) ||
    sep (optBang r)

/-- `^(feat|…)(\(.+\))?!?: .+` — the full-format check at `ai.ts:351`. -/
def headerStart (l : List Char) : Bool :=
  match matchTypeC commitTypes l with
  | some (_, r) => afterTypeMatch colonSpaceContent r
  | none => false

/-- `^(feat|…)(\(.+\))?!?:\s+.+` — `headerPattern` (`ai.ts:369`). -/
def headerLine (l : List Char) : Bool :=
  match matchTypeC commitTypes l with
  | some (_, r) => afterTypeMatch colonWsContent r
  | none => false

/-- `^(feat|…)(\(.+\))?!?:\s*$` — `typeOnlyPattern` (`ai.ts:370`). -/
def typeOnlyLine (l : List Char) : Bool :=
  match matchTypeC commitTypes l with
  | some (_, r) => afterTypeMatch colonWsEnd r
  | none => false

/-! ### The duplicated-type-prefix collapse (`ai.ts:391–400`) -/

/-- `:\s+` consumed (greedy `\s+`; deterministic because what follows is a
type starting with a letter). -/
def parseColonWs (l : List Char) : Option (List Char) :=
  match l with
  | c :: r =>
    if c = ':' then
      let r2 := r.dropWhile jsIsWs
      if r2.length < r.length then some r2 else none
    else none
  | [] => none

/-- `(.+)` greedy to the end of the line (stops at a newline); `none` when
empty. -/
def parseDescTail (l : List Char) : Option (List Char) :=
  let d := l.takeWhile (fun c => !(c = '\n'))
  if d = [] then none else some d

/-- Greedy scope capture: longest newline-free `mid` such that
`mid ++ ')' :: rest` with `cont rest` succeeding; extension is preferred
over closing at every position (standard greedy backtracking). -/
def scopeAux (cont : List Char → Option (List Char)) :
    Nat → List Char → Option (List Char × List Char)
  | 0, _ => none
  | fuel + 1, l =>
    match l with
    | [] => none
    | c :: rest =>
      match (if c = '\n' then none
             else (scopeAux cont fuel rest).map (fun p => (c :: p.1, p.2))) with
      | some x => some x
      | none =>
        if c = ')' then (cont rest).map (fun m4 => (([] : List Char), m4))
        else none

/-- `\(.+\)` with greedy capture: the input starts after `(`; the first
character belongs to the (nonempty) inner `.+`. -/
def parseScope (cont : List Char → Option (List Char)) (l : List Char) :
    Option (List Char × List Char) :=
  match l with
  | c :: rest =>
    if c = '\n' then none
    else (scopeAux cont (rest.length + 1) rest).map (fun p => (c :: p.1, p.2))
  | [] => none

/-- `!?:\s+(.+)` — the continuation after the inner type/scope, returning
the captured description. -/
def dupTail (l : List Char) : Option (List Char) :=
  match parseColonWs (optBang l) with
  | some r => parseDescTail r
  | none => none

/-- `^(T):\s+(T)(\(.+\))?!?:\s+(.+)` with captures: inner type, optional
scope (with parentheses), description. -/
def dupMatch (l : List Char) :
    Option (List Char × Option (List Char) × List Char) :=
  match matchTypeC commitTypes l with
  | none => none
  | some (_, r1) =>
    match parseColonWs r1 with
    | none => none
    | some r2 =>
      match matchTypeC commitTypes r2 with
      | none => none
      | some (innerT, r3) =>
        match r3 with
        | c :: r4 =>
          if c = '(' then
            match parseScope dupTail r4 with
            | some (mid, m4) => some (innerT, some ('(' :: mid ++ [')']), m4)
            | none =>
              match dupTail r3 with
              | some m4 => some (innerT, none, m4)
              | none => none
          else
            match dupTail r3 with
            | some m4 => some (innerT, none, m4)
            | none => none
        | [] =>
          match dupTail r3 with
          | some m4 => some (innerT, none, m4)
          | none => none

/-- The rebuild `` `${innerType}${m[3] ?? ''}: ${m[4]}` `` applied to the
first line when the duplicated-prefix pattern matches. -/
def dupCollapse (l : List Char) : List Char :=
  match dupMatch l with
  | some (t, sc, d) => t ++ sc.getD [] ++ ':' :: ' ' :: d
  | none => l

/-! ### The line-level pipeline (`ai.ts:364–425`) -/

/-- Keyword-based type inference (`ai.ts:351–362`): when the text does not
already start with a conventional header, prepend a type chosen by ordered
substring heuristics. -/
def inferType (l : List Char) : List Char :=
  if headerStart l then l
  else if includes l "version".data || includes l "update".data then
    "chore: ".data ++ l
  else if includes l "feature".data || includes l "add".data then
    "feat: ".data ++ l
  else if includes l "fix".data || includes l "bug".data then
    "fix: ".data ++ l
  else "chore: ".data ++ l

/-- `^(The commit message is:|Commit message:|Message:)\s*` removed once
(non-global, anchored). -/
def stripPreamble (l : List Char) : List Char :=
  match matchLit "The commit message is:".data l with
  | some r => r.dropWhile jsIsWs
  | none =>
    match matchLit "Commit message:".data l with
    | some r => r.dropWhile jsIsWs
    | none =>
      match matchLit "Message:".data l with
      | some r => r.dropWhile jsIsWs
      | none => l

/-- `l.trim() === ''`. -/
def isBlank (l : List Char) : Bool := jsTrim l = []

/-- `/^```/.test(l)`. -/
def isFence (l : List Char) : Bool :=
  (matchLit ('\x60' :: '\x60' :: '\x60' :: []) l).isSome

/-- The `while (typeOnlyPattern.test(lines[0]))` loop (`ai.ts:379–382`):
drop leading type-only lines, then leading blanks, repeatedly. -/
def dropLeadingTypeOnly : Nat → List (List Char) → List (List Char)
  | 0, ls => ls
  | fuel + 1, ls =>
    match ls with
    | l :: rest =>
      if typeOnlyLine l then dropLeadingTypeOnly fuel (rest.dropWhile isBlank)
      else ls
    | [] => []

/-- `Array.prototype.findIndex(headerPattern.test)` (as an `Option`). -/
def findHeaderIdx : List (List Char) → Option Nat
  | [] => none
  | l :: rest =>
    if headerLine l then some 0 else (findHeaderIdx rest).map (· + 1)

/-- `ai.ts:385–388`: when the first header occurs later than line 0, start
from it. -/
def sliceFromHeader (ls : List (List Char)) : List (List Char) :=
  match findHeaderIdx ls with
  | some i => if 0 < i then ls.drop i else ls
  | none => ls

/-- `ai.ts:391–400`: collapse a duplicated type prefix on the first line. -/
def collapseDupHead : List (List Char) → List (List Char)
  | [] => []
  | l :: rest => dupCollapse l :: rest

/-- `ai.ts:403–415`: keep at most one blank line between the header and the
body (`splice(1, blankCount - 1)` keeps the last blank of the run). -/
def collapseBlanksAfterHead (ls : List (List Char)) : List (List Char) :=
  match ls with
  | l0 :: l1 :: rest =>
    if 0 < (jsTrim l0).length then
      let blanks := (l1 :: rest).takeWhile isBlank
      if 1 < blanks.length then l0 :: (l1 :: rest).drop (blanks.length - 1)
      else ls
    else ls
  | _ => ls

/-- `ai.ts:418–423`: truncate at the second line matching the header
pattern; everything from it on is discarded. -/
def truncateSecondHeader (ls : List (List Char)) : List (List Char) :=
  match ls with
  | [] => []
  | l0 :: rest =>
    match findHeaderIdx rest with
    | some j => l0 :: rest.take j
    | none => ls

/-- The full normalization pipeline applied by `generateCommitMessage` to
the raw model output (`ai.ts:337–425`).  `none` models the
`'No commit message generated'` failure for blank input. -/
def normalize (content : List Char) : Option (List Char) :=
  let t := jsTrim content
  if t = [] then none
  else
    let m1 := stripPreamble t
    let m2 := inferType m1
    let m3 := cleanMessage m2
    let lines0 := (splitOnChar '\n' m3).map rtrim
    let lines1 := lines0.filter (fun l => !(isFence l))
    let lines2 := lines1.dropWhile isBlank
    let lines3 := dropLeadingTypeOnly lines2.length lines2
    let lines4 := sliceFromHeader lines3
    let lines5 := collapseDupHead lines4
    let lines6 := collapseBlanksAfterHead lines5
    let lines7 := truncateSecondHeader lines6
    some (jsTrim (joinLines lines7))

/-- Number of lines of the output matching the conventional-commit header
pattern. -/
def headerCount (s : List Char) : Nat :=
  ((splitOnChar '\n' s).filter headerLine).length

/-- The first line of a string. -/
def firstLine (s : List Char) : List Char :=
  (splitOnChar '\n' s).headI

/-- The line list after the fence filter and the leading-blank drop
(`lines2` in the pipeline of `normalize`). -/
def normLines2 (x : List Char) : List (List Char) :=
  ((((splitOnChar '\n' (cleanMessage (inferType (stripPreamble
      (jsTrim x))))).map rtrim).filter
    (fun l => !(isFence l))).dropWhile isBlank)

/-- The line list after all line-level stages (`lines7` in the pipeline of
`normalize`). -/
def normLines7 (x : List Char) : List (List Char) :=
  truncateSecondHeader (collapseBlanksAfterHead (collapseDupHead
    (sliceFromHeader (dropLeadingTypeOnly (normLines2 x).length
      (normLines2 x)))))

/-- C5 (counterexample).  Normalizing
`"chore:\nfeat(api): add retry\nfix: unrelated"` does *not* produce
`"feat(api): add retry"`: the first line `chore:` (colon followed by a
newline, not a space) defeats the header check, the text contains `add`,
so keyword inference prepends `feat: ` to the whole text before any
line-level cleanup. -/
theorem C5_example_counterexample :
    normalize ("chore:\nfeat(api): add retry\nfix: unrelated".data) ≠
      some ("feat(api): add retry".data) := by
  decide

/-- C5 (amended).  Normalizing that input produces `"feat: chore:"`: the
inference glues `feat: ` onto the leading `chore:`, which thereby becomes
a valid header line (`feat: chore:`), and the truncation at the second
header (`feat(api): add retry`) discards everything after it. -/
theorem C5_example_actual :
    normalize ("chore:\nfeat(api): add retry\nfix: unrelated".data) =
      some ("feat: chore:".data) := by
  decide

/-- C3 (counterexample).  The normalizer is not idempotent: each pass
collapses exactly one level of a duplicated type prefix, so
`"chore: chore: chore: hi"` normalizes to `"chore: chore: hi"`, which
normalizes further to `"chore: hi"`. -/
theorem C3_idempotence_counterexample :
    normalize ("chore: chore: chore: hi".data) = some ("chore: chore: hi".data) ∧
    normalize ("chore: chore: hi".data) = some ("chore: hi".data) ∧
    (normalize ("chore: chore: chore: hi".data)).bind normalize ≠
      normalize ("chore: chore: chore: hi".data) := by
  refine ⟨by decide, by decide, ?_⟩
  intro h
  rw [show normalize ("chore: chore: chore: hi".data) = some ("chore: chore: hi".data)
    from by decide] at h
  rw [show Option.bind (some ("chore: chore: hi".data)) normalize =
    some ("chore: hi".data) from by decide] at h
  exact absurd h (by decide)

/-- C4 (counterexample).  A successful normalizer output need not start
with a conventional-commit header: `"feat: <a>\nMessage: hi"` normalizes
successfully to `"Message: hi"` (tag removal empties the header into a
type-only line, which is dropped), whose first line matches no header and
which contains no header at all — so "exactly once" fails. -/
theorem C4_header_counterexample :
    normalize ("feat: <a>\nMessage: hi".data) = some ("Message: hi".data) ∧
    headerLine (firstLine ("Message: hi".data)) = false ∧
    headerCount ("Message: hi".data) = 0 := by
  refine ⟨by decide, by decide, by decide⟩

/-! ### Splitting / trimming lemmas -/

theorem splitOnChar_ne_nil (sep : Char) : ∀ l, splitOnChar sep l ≠ [] := by
  intro l
  cases l with
  | nil => simp [splitOnChar]
  | cons c t =>
    by_cases h : c = sep <;> simp only [splitOnChar, h, if_true, if_false, ite_true, ite_false]
    · simp
    · split
      · simp
      · simp

theorem splitOnChar_cons_eq (sep : Char) (t : List Char) :
    splitOnChar sep (sep :: t) = [] :: splitOnChar sep t := by
  simp [splitOnChar]

theorem splitOnChar_cons_ne {sep c : Char} (t : List Char) (h : ¬(c = sep)) :
    splitOnChar sep (c :: t) =
      (c :: (splitOnChar sep t).headI) :: (splitOnChar sep t).tail := by
  simp only [splitOnChar, h, if_false, ite_false]
  cases hs : splitOnChar sep t with
  | nil => exact absurd hs (splitOnChar_ne_nil sep t)
  | cons hd tl => simp

theorem splitOnChar_no_sep {sep : Char} : ∀ {l : List Char}, sep ∉ l →
    splitOnChar sep l = [l] := by
  intro l
  induction l with
  | nil => intro _; rfl
  | cons c t ih =>
    intro h
    have hc : ¬(c = sep) := fun he => h (he ▸ List.mem_cons_self c t)
    rw [splitOnChar_cons_ne t hc, ih (fun hm => h (List.mem_cons_of_mem c hm))]
    rfl

theorem mem_splitOnChar_no_sep {sep : Char} :
    ∀ (l : List Char) (m : List Char), m ∈ splitOnChar sep l → sep ∉ m := by
  intro l
  induction l with
  | nil =>
    intro m hm
    simp [splitOnChar] at hm
    simp [hm]
  | cons c t ih =>
    intro m hm
    by_cases h : c = sep
    · subst h
      rw [splitOnChar_cons_eq] at hm
      rcases List.mem_cons.mp hm with h1 | h1
      · simp [h1]
      · exact ih m h1
    · rw [splitOnChar_cons_ne t h] at hm
      rcases List.mem_cons.mp hm with h1 | h1
      · subst h1
        intro hmem
        rcases List.mem_cons.mp hmem with h2 | h2
        · exact h h2.symm
        · have := ih (splitOnChar sep t).headI
            (by
              cases hs : splitOnChar sep t with
              | nil => exact absurd hs (splitOnChar_ne_nil sep t)
              | cons a b => simp [hs])
          exact this h2
      · have hmem2 : m ∈ splitOnChar sep t := by
          cases hs : splitOnChar sep t with
          | nil => exact absurd hs (splitOnChar_ne_nil sep t)
          | cons a b =>
            rw [hs] at h1
            exact List.mem_cons_of_mem a h1
        exact ih m hmem2

theorem splitOnChar_append_sep {sep : Char} :
    ∀ {l : List Char} (m : List Char), sep ∉ l →
      splitOnChar sep (l ++ sep :: m) = l :: splitOnChar sep m := by
  intro l
  induction l with
  | nil => intro m _; simpa using splitOnChar_cons_eq sep m
  | cons c t ih =>
    intro m h
    have hc : ¬(c = sep) := fun he => h (he ▸ List.mem_cons_self c t)
    have ht : sep ∉ t := fun hm => h (List.mem_cons_of_mem c hm)
    rw [List.cons_append, splitOnChar_cons_ne _ hc, ih m ht]
    rfl

theorem splitOnChar_joinLines :
    ∀ (L : List (List Char)), L ≠ [] → (∀ l ∈ L, ('\n' : Char) ∉ l) →
      splitOnChar '\n' (joinLines L) = L := by
  intro L
  induction L with
  | nil => intro h; exact absurd rfl h
  | cons l rest ih =>
    intro _ hfree
    cases rest with
    | nil =>
      simpa [joinLines] using splitOnChar_no_sep (hfree l (List.mem_cons_self l []))
    | cons l2 rest2 =>
      have : joinLines (l :: l2 :: rest2) = l ++ '\n' :: joinLines (l2 :: rest2) := rfl
      rw [this, splitOnChar_append_sep _ (hfree l (List.mem_cons_self l _)),
        ih (by simp) (fun x hx => hfree x (List.mem_cons_of_mem l hx))]

theorem dropWhile_dropWhile (p : Char → Bool) :
    ∀ l : List Char, (l.dropWhile p).dropWhile p = l.dropWhile p := by
  intro l
  induction l with
  | nil => rfl
  | cons c t ih =>
    by_cases h : p c = true <;> simp [List.dropWhile_cons, h, ih]

theorem rtrim_nil : rtrim [] = [] := rfl

theorem rtrim_cons (c : Char) (t : List Char) :
    rtrim (c :: t) =
      if rtrim t = [] then (if jsIsWs c then [] else [c]) else c :: rtrim t := by
  unfold rtrim
  rw [show (c :: t).reverse = t.reverse ++ [c] from by simp, List.dropWhile_append]
  by_cases h : (t.reverse.dropWhile jsIsWs) = []
  · rw [if_pos (by simp [h]), if_pos (by simp [h])]
    by_cases hc : jsIsWs c <;> simp [List.dropWhile_cons, hc]
  · rw [if_neg (by simp [h]), if_neg (by simp [h])]
    simp

theorem rtrim_idem (l : List Char) : rtrim (rtrim l) = rtrim l := by
  unfold rtrim
  rw [List.reverse_reverse, dropWhile_dropWhile]

theorem mem_rtrim {c : Char} {l : List Char} (h : c ∈ rtrim l) : c ∈ l := by
  unfold rtrim at h
  rw [List.mem_reverse] at h
  have hsuf : l.reverse.dropWhile jsIsWs <:+ l.reverse :=
    ⟨l.reverse.takeWhile jsIsWs, by rw [List.takeWhile_append_dropWhile]⟩
  have : c ∈ l.reverse := hsuf.sublist.subset h
  simpa using this

/-- Lines of the left-trimmed string, apart from the first, are exact lines
of the original string, apart from its first. -/
theorem ltrim_tail_lines :
    ∀ (A : List Char) (m : List Char),
      m ∈ (splitOnChar '\n' (ltrim A)).tail → m ∈ (splitOnChar '\n' A).tail := by
  intro A
  induction A with
  | nil => intro m hm; simpa using hm
  | cons c t ih =>
    intro m hm
    by_cases hw : jsIsWs c
    · have hlt : ltrim (c :: t) = ltrim t := by simp [ltrim, List.dropWhile_cons, hw]
      rw [hlt] at hm
      by_cases hn : c = '\n'
      · subst hn
        rw [splitOnChar_cons_eq]
        exact List.mem_of_mem_tail (ih m hm)
      · rw [splitOnChar_cons_ne t hn]
        have := ih m hm
        cases hs : splitOnChar '\n' t with
        | nil => exact absurd hs (splitOnChar_ne_nil _ t)
        | cons a b =>
          rw [hs] at this
          simpa using this
    · have hlt : ltrim (c :: t) = c :: t := by simp [ltrim, List.dropWhile_cons, hw]
      rw [hlt] at hm
      exact hm

theorem rtrim_eq_nil_iff {l : List Char} : rtrim l = [] ↔ ∀ c ∈ l, jsIsWs c := by
  unfold rtrim
  rw [List.reverse_eq_nil_iff, List.dropWhile_eq_nil_iff]
  constructor
  · intro h c hc; exact h c (List.mem_reverse.mpr hc)
  · intro h c hc; exact h c (List.mem_reverse.mp hc)

/-- Appending to the left of a nonempty right-trim-fixed list stays
right-trim-fixed. -/
theorem rtrim_append (A d : List Char) (hfix : rtrim d = d) (hne : d ≠ []) :
    rtrim (A ++ d) = A ++ d := by
  unfold rtrim at hfix ⊢
  rw [List.reverse_append, List.dropWhile_append]
  have hrev : d.reverse.dropWhile jsIsWs = d.reverse := by
    have h2 := congrArg List.reverse hfix
    rwa [List.reverse_reverse] at h2
  rw [hrev, if_neg (by simpa using hne)]
  simp

/-- A suffix of a right-trim-fixed list is right-trim-fixed. -/
theorem rtrim_suffix_fixed {a d : List Char} (ha : rtrim a = a) (hs : d <:+ a) :
    rtrim d = d := by
  obtain ⟨u, rfl⟩ := hs
  by_cases hne : d = []
  · subst hne; rfl
  · unfold rtrim at ha ⊢
    rw [List.reverse_append, List.dropWhile_append] at ha
    have hsufd : d.reverse.dropWhile jsIsWs <:+ d.reverse :=
      ⟨d.reverse.takeWhile jsIsWs, by rw [List.takeWhile_append_dropWhile]⟩
    have hsub : List.Sublist (d.reverse.dropWhile jsIsWs) d.reverse :=
      hsufd.sublist
    by_cases h0 : (d.reverse.dropWhile jsIsWs).isEmpty = true
    · exfalso
      rw [if_pos h0] at ha
      have hlen := congrArg List.length ha
      have hsufu : u.reverse.dropWhile jsIsWs <:+ u.reverse :=
        ⟨u.reverse.takeWhile jsIsWs, by rw [List.takeWhile_append_dropWhile]⟩
      have hsubu : List.Sublist (u.reverse.dropWhile jsIsWs) u.reverse :=
        hsufu.sublist
      have hle := hsubu.length_le
      simp only [List.length_reverse, List.length_append] at hlen hle
      have hd1 : 0 < d.length := List.length_pos.mpr hne
      omega
    · rw [if_neg h0] at ha
      have hlen := congrArg List.length ha
      simp only [List.length_reverse, List.length_append] at hlen
      have hle := hsub.length_le
      simp only [List.length_reverse] at hle
      have heq : d.reverse.dropWhile jsIsWs = d.reverse :=
        hsub.eq_of_length (by simp only [List.length_reverse]; omega)
      rw [heq]
      simp

/-- Characters of any line of a split belong to the original string. -/
theorem mem_line_mem {sep : Char} :
    ∀ (t : List Char) (m : List Char) (x : Char),
      m ∈ splitOnChar sep t → x ∈ m → x ∈ t := by
  intro t
  induction t with
  | nil =>
    intro m x hm hx
    simp [splitOnChar] at hm
    subst hm
    cases hx
  | cons c t ih =>
    intro m x hm hx
    by_cases h : c = sep
    · subst h
      rw [splitOnChar_cons_eq] at hm
      rcases List.mem_cons.mp hm with h1 | h1
      · subst h1; cases hx
      · exact List.mem_cons_of_mem _ (ih m x h1 hx)
    · rw [splitOnChar_cons_ne t h] at hm
      cases hs : splitOnChar sep t with
      | nil => exact absurd hs (splitOnChar_ne_nil _ t)
      | cons hd tl =>
        rw [hs] at hm
        rcases List.mem_cons.mp hm with h1 | h1
        · subst h1
          rcases List.mem_cons.mp hx with h2 | h2
          · exact h2 ▸ List.mem_cons_self c t
          · exact List.mem_cons_of_mem _ (ih hd x (by rw [hs]; exact List.mem_cons_self hd tl) (by simpa using h2))
        · exact List.mem_cons_of_mem _ (ih m x (by rw [hs]; exact List.mem_cons_of_mem hd h1) hx)

/-- When every line of `A` is right-trim-fixed, right-trimming `A` keeps a
prefix of its line list. -/
theorem rtrim_lines_isPrefix :
    ∀ (A : List Char), (∀ m ∈ splitOnChar '\n' A, rtrim m = m) →
      splitOnChar '\n' (rtrim A) <+: splitOnChar '\n' A := by
  intro A
  induction A with
  | nil => intro _; rw [rtrim_nil]
  | cons c t ih =>
    intro H
    cases hs : splitOnChar '\n' t with
    | nil => exact absurd hs (splitOnChar_ne_nil _ t)
    | cons hd tl =>
      by_cases hn : c = '\n'
      · subst hn
        have Ht : ∀ m ∈ splitOnChar '\n' t, rtrim m = m := by
          intro m hm
          exact H m (by rw [splitOnChar_cons_eq]; exact List.mem_cons_of_mem _ hm)
        rw [splitOnChar_cons_eq, rtrim_cons]
        by_cases h0 : rtrim t = []
        · rw [if_pos h0]
          rw [show jsIsWs '\n' = true from rfl, if_pos rfl]
          rw [show splitOnChar '\n' ([] : List Char) = [[]] from rfl]
          exact (List.cons_prefix_cons).mpr ⟨rfl, List.nil_prefix⟩
        · rw [if_neg h0, splitOnChar_cons_eq]
          exact (List.cons_prefix_cons).mpr ⟨rfl, ih Ht⟩
      · have hsplit : splitOnChar '\n' (c :: t) = (c :: hd) :: tl := by
          rw [splitOnChar_cons_ne t hn, hs]; rfl
        rw [hsplit] at H ⊢
        have Hhead : rtrim (c :: hd) = c :: hd := H (c :: hd) (List.mem_cons_self _ _)
        have Hhd : rtrim hd = hd := by
          rw [rtrim_cons] at Hhead
          by_cases h0 : rtrim hd = []
          · rw [if_pos h0] at Hhead
            by_cases hwc : jsIsWs c
            · rw [if_pos hwc] at Hhead; cases Hhead
            · rw [if_neg hwc] at Hhead
              have hhd : hd = [] := by
                have hlen := congrArg List.length Hhead
                simp at hlen
                exact hlen
              rw [hhd]
              rfl
          · rw [if_neg h0] at Hhead
            simpa using Hhead
        have Hall : ∀ m ∈ splitOnChar '\n' t, rtrim m = m := by
          intro m hm
          rw [hs] at hm
          rcases List.mem_cons.mp hm with h1 | h1
          · rw [h1]; exact Hhd
          · exact H m (List.mem_cons_of_mem _ h1)
        have IH := ih Hall
        rw [rtrim_cons]
        by_cases h0 : rtrim t = []
        · have htws : ∀ x ∈ t, jsIsWs x = true := rtrim_eq_nil_iff.mp h0
          have hhdnil : rtrim hd = [] := rtrim_eq_nil_iff.mpr
            (fun x hx => htws x (mem_line_mem t hd x (by rw [hs]; exact List.mem_cons_self _ _) hx))
          have hhdeq : hd = [] := by rw [← Hhd, hhdnil]
          rw [if_pos h0]
          by_cases hwc : jsIsWs c
          · exfalso
            rw [rtrim_cons, hhdeq, rtrim_nil, if_pos rfl, if_pos hwc] at Hhead
            cases Hhead
          · rw [if_neg hwc]
            rw [splitOnChar_no_sep (by
              intro hmem
              rcases List.mem_cons.mp hmem with h2 | h2
              · exact hn h2.symm
              · cases h2)]
            rw [hhdeq]
            exact (List.cons_prefix_cons).mpr ⟨rfl, List.nil_prefix⟩
        · rw [if_neg h0]
          cases hs2 : splitOnChar '\n' (rtrim t) with
          | nil => exact absurd hs2 (splitOnChar_ne_nil _ _)
          | cons hd2 tl2 =>
            rw [splitOnChar_cons_ne _ hn, hs2]
            rw [hs2, hs] at IH
            have hpre := (List.cons_prefix_cons).mp IH
            simp only [List.headI, List.tail]
            exact (List.cons_prefix_cons).mpr ⟨by rw [hpre.1], hpre.2⟩

/-- When every line of `A` apart from the first is right-trim-fixed, the
lines of `rtrim A` apart from the first all occur among the lines of `A`
apart from the first. -/
theorem rtrim_tail_lines :
    ∀ (A : List Char), (∀ m ∈ (splitOnChar '\n' A).tail, rtrim m = m) →
      ∀ m ∈ (splitOnChar '\n' (rtrim A)).tail, m ∈ (splitOnChar '\n' A).tail := by
  intro A
  induction A with
  | nil => intro _ m hm; simpa using hm
  | cons c t ih =>
    intro H m hm
    cases hs : splitOnChar '\n' t with
    | nil => exact absurd hs (splitOnChar_ne_nil _ t)
    | cons hd tl =>
      by_cases hn : c = '\n'
      · subst hn
        rw [splitOnChar_cons_eq] at H ⊢
        rw [rtrim_cons] at hm
        by_cases h0 : rtrim t = []
        · rw [if_pos h0, show jsIsWs '\n' = true from rfl, if_pos rfl] at hm
          simp [splitOnChar] at hm
        · rw [if_neg h0, splitOnChar_cons_eq] at hm
          simp only [List.tail] at H hm ⊢
          exact (rtrim_lines_isPrefix t H).sublist.subset hm
      · have hsplit : splitOnChar '\n' (c :: t) = (c :: hd) :: tl := by
          rw [splitOnChar_cons_ne t hn, hs]; rfl
        rw [hsplit] at H ⊢
        simp only [List.tail] at H ⊢
        rw [rtrim_cons] at hm
        by_cases h0 : rtrim t = []
        · rw [if_pos h0] at hm
          by_cases hwc : jsIsWs c
          · rw [if_pos hwc] at hm
            simp [splitOnChar] at hm
          · rw [if_neg hwc] at hm
            rw [splitOnChar_no_sep (by
              intro hmem
              rcases List.mem_cons.mp hmem with h2 | h2
              · exact hn h2.symm
              · cases h2)] at hm
            simp at hm
        · rw [if_neg h0] at hm
          cases hs2 : splitOnChar '\n' (rtrim t) with
          | nil => exact absurd hs2 (splitOnChar_ne_nil _ _)
          | cons hd2 tl2 =>
            rw [splitOnChar_cons_ne _ hn, hs2] at hm
            simp only [List.headI, List.tail] at hm
            have Hq : ∀ x ∈ (splitOnChar '\n' t).tail, rtrim x = x := by
              rw [hs]; exact H
            have := ih Hq m (by rw [hs2]; exact hm)
            rw [hs] at this
            exact this

/-! ### Structure of the final pipeline stages -/

theorem findHeaderIdx_none_all :
    ∀ ls, findHeaderIdx ls = none → ∀ l ∈ ls, headerLine l = false := by
  intro ls
  induction ls with
  | nil => intro _ l hl; cases hl
  | cons a b ih =>
    intro h l hl
    by_cases ha : headerLine a
    · simp [findHeaderIdx, ha] at h
    · simp only [findHeaderIdx, ha, if_false, ite_false] at h
      rcases List.mem_cons.mp hl with h1 | h1
      · rw [h1]; simpa using ha
      · exact ih (by cases hi : findHeaderIdx b with
          | none => rfl
          | some j => rw [hi] at h; simp at h) l h1

theorem findHeaderIdx_take :
    ∀ ls j, findHeaderIdx ls = some j → ∀ l ∈ ls.take j, headerLine l = false := by
  intro ls
  induction ls with
  | nil => intro j _ l hl; simp at hl
  | cons a b ih =>
    intro j h l hl
    by_cases ha : headerLine a
    · simp only [findHeaderIdx, ha, if_true, ite_true] at h
      have : j = 0 := by injection h with h'; exact h'.symm
      subst this
      simp at hl
    · simp only [findHeaderIdx, ha, if_false, ite_false] at h
      cases hi : findHeaderIdx b with
      | none => rw [hi] at h; simp at h
      | some j' =>
        rw [hi] at h
        simp only [Option.map_some'] at h
        have hj : j = j' + 1 := by injection h with h'; exact h'.symm
        subst hj
        rw [List.take_succ_cons] at hl
        rcases List.mem_cons.mp hl with h1 | h1
        · rw [h1]; simpa using ha
        · exact ih j' hi l h1

/-- `truncateSecondHeader` keeps the head and leaves no header in the
tail. -/
theorem truncate_shape (a : List Char) (b : List (List Char)) :
    ∃ r, truncateSecondHeader (a :: b) = a :: r ∧ r ⊆ b ∧
      ∀ l ∈ r, headerLine l = false := by
  cases hi : findHeaderIdx b with
  | none =>
    exact ⟨b, by simp [truncateSecondHeader, hi], fun _ h => h,
      findHeaderIdx_none_all b hi⟩
  | some j =>
    exact ⟨b.take j, by simp [truncateSecondHeader, hi], List.take_subset j b,
      findHeaderIdx_take b j hi⟩

/-- `collapseBlanksAfterHead` keeps the head and a sub-collection of the
tail. -/
theorem collapseBlanks_shape (a : List Char) (b : List (List Char)) :
    ∃ r, collapseBlanksAfterHead (a :: b) = a :: r ∧ r ⊆ b := by
  cases b with
  | nil => exact ⟨[], rfl, fun _ h => h⟩
  | cons l1 rest =>
    simp only [collapseBlanksAfterHead]
    by_cases h0 : 0 < (jsTrim a).length
    · simp only [h0, if_true, ite_true]
      by_cases h1 : 1 < ((l1 :: rest).takeWhile isBlank).length
      · simp only [h1, if_true, ite_true]
        exact ⟨_, rfl, List.drop_subset _ _⟩
      · simp only [h1, if_false, ite_false]
        exact ⟨l1 :: rest, rfl, fun _ h => h⟩
    · simp only [h0, if_false, ite_false]
      exact ⟨l1 :: rest, rfl, fun _ h => h⟩

/-! ### Newline-freeness of the rebuilt first line -/

theorem matchTypeC_mem :
    ∀ (ts : List (List Char)) (l t r : List Char),
      matchTypeC ts l = some (t, r) → t ∈ ts := by
  intro ts
  induction ts with
  | nil => intro l t r h; cases h
  | cons a b ih =>
    intro l t r h
    simp only [matchTypeC] at h
    cases hm : matchLit a l with
    | some r' =>
      rw [hm] at h
      injection h with h'
      injection h' with h1 h2
      exact h1 ▸ List.mem_cons_self a b
    | none =>
      rw [hm] at h
      exact List.mem_cons_of_mem a (ih l t r h)

theorem parseDescTail_no_newline {l d : List Char} (h : parseDescTail l = some d) :
    ('\n' : Char) ∉ d := by
  have h' : (if l.takeWhile (fun c => !(c = '\n')) = [] then none
      else some (l.takeWhile (fun c => !(c = '\n')))) = some d := h
  by_cases hc : l.takeWhile (fun c => !(c = '\n')) = []
  · rw [if_pos hc] at h'; cases h'
  · rw [if_neg hc] at h'
    injection h' with h2
    intro hm
    have := List.mem_takeWhile_imp (h2 ▸ hm)
    simp at this

theorem matchLit_suffix : ∀ (p l r : List Char), matchLit p l = some r → r <:+ l := by
  intro p
  induction p with
  | nil =>
    intro l r h
    injection h with h2
    exact h2 ▸ List.suffix_refl l
  | cons a ps ih =>
    intro l r h
    cases l with
    | nil => cases h
    | cons c cs =>
      simp only [matchLit] at h
      by_cases hc : c = a
      · rw [if_pos hc] at h
        exact (ih cs r h).trans (List.suffix_cons c cs)
      · rw [if_neg hc] at h
        cases h

theorem matchTypeC_suffix :
    ∀ (ts : List (List Char)) (l t r : List Char),
      matchTypeC ts l = some (t, r) → r <:+ l := by
  intro ts
  induction ts with
  | nil => intro l t r h; cases h
  | cons a b ih =>
    intro l t r h
    simp only [matchTypeC] at h
    cases hm : matchLit a l with
    | some r2 =>
      simp only [hm, Option.some.injEq, Prod.mk.injEq] at h
      obtain ⟨rfl, rfl⟩ := h
      exact matchLit_suffix _ _ _ hm
    | none =>
      simp only [hm] at h
      exact ih l t r h

theorem optBang_suffix (l : List Char) : optBang l <:+ l := by
  cases l with
  | nil => exact List.suffix_refl _
  | cons c r =>
    show (if c = '!' then r else c :: r) <:+ c :: r
    by_cases hc : c = '!'
    · rw [if_pos hc]
      exact List.suffix_cons c r
    · rw [if_neg hc]

theorem parseColonWs_suffix {l r : List Char} (h : parseColonWs l = some r) :
    r <:+ l := by
  cases l with
  | nil => cases h
  | cons c rest =>
    have h2 : (if c = ':' then
        (if (rest.dropWhile jsIsWs).length < rest.length
          then some (rest.dropWhile jsIsWs) else none)
        else none) = some r := h
    by_cases hc : c = ':'
    · rw [if_pos hc] at h2
      by_cases hl : (rest.dropWhile jsIsWs).length < rest.length
      · rw [if_pos hl] at h2
        injection h2 with h3
        have hsub : rest.dropWhile jsIsWs <:+ rest :=
          ⟨rest.takeWhile jsIsWs, by rw [List.takeWhile_append_dropWhile]⟩
        exact h3 ▸ (hsub.trans (List.suffix_cons c rest))
      · rw [if_neg hl] at h2; cases h2
    · rw [if_neg hc] at h2; cases h2

theorem takeWhile_eq_self_of_all (p : Char → Bool) :
    ∀ l : List Char, (∀ c ∈ l, p c = true) → l.takeWhile p = l := by
  intro l
  induction l with
  | nil => intro _; rfl
  | cons c t ih =>
    intro h
    simp only [List.takeWhile_cons, h c (List.mem_cons_self c t), if_true, ite_true]
    rw [ih (fun x hx => h x (List.mem_cons_of_mem c hx))]

/-- For newline-free input, a successful `dupTail` capture is a nonempty
suffix of the input. -/
theorem dupTail_suffix {l d : List Char} (hnl : ('\n' : Char) ∉ l)
    (h : dupTail l = some d) : d <:+ l ∧ d ≠ [] := by
  unfold dupTail at h
  cases hc : parseColonWs (optBang l) with
  | none => rw [hc] at h; cases h
  | some r =>
    rw [hc] at h
    have hsufr : r <:+ l := (parseColonWs_suffix hc).trans (optBang_suffix l)
    have hrnl : ∀ c ∈ r, (!(c = '\n') : Bool) = true := by
      intro c hcm
      have hcl : c ∈ l := hsufr.subset hcm
      have hne : ¬(c = '\n') := fun he => hnl (he ▸ hcl)
      simpa using hne
    have ht : r.takeWhile (fun c => !(c = '\n')) = r :=
      takeWhile_eq_self_of_all _ r hrnl
    have h2 : (if r.takeWhile (fun c => !(c = '\n')) = [] then none
        else some (r.takeWhile (fun c => !(c = '\n')))) = some d := h
    rw [ht] at h2
    by_cases hre : r = []
    · rw [if_pos hre] at h2; cases h2
    · rw [if_neg hre] at h2
      injection h2 with h3
      exact ⟨h3 ▸ hsufr, h3 ▸ hre⟩

theorem dupTail_no_newline {l d : List Char} (h : dupTail l = some d) :
    ('\n' : Char) ∉ d := by
  unfold dupTail at h
  cases hc : parseColonWs (optBang l) with
  | none => rw [hc] at h; cases h
  | some r => rw [hc] at h; exact parseDescTail_no_newline h

theorem scopeAux_spec (cont : List Char → Option (List Char)) :
    ∀ (fuel : Nat) (l mid m4 : List Char),
      scopeAux cont fuel l = some (mid, m4) →
      (('\n' : Char) ∉ mid) ∧ ∃ r, r <:+ l ∧ cont r = some m4 := by
  intro fuel
  induction fuel with
  | zero => intro l mid m4 h; cases h
  | succ n ih =>
    intro l mid m4 h
    simp only [scopeAux] at h
    cases l with
    | nil => cases h
    | cons c rest =>
      by_cases hn : c = '\n'
      · subst hn
        exact Option.noConfusion h
      · simp only [hn, if_false, ite_false] at h
        cases ha : scopeAux cont n rest with
        | some p =>
          rw [ha] at h
          simp only [Option.map_some'] at h
          injection h with h'
          injection h' with h1 h2
          obtain ⟨hmid, r, hsuf, hr⟩ := ih rest p.1 p.2 (by rw [ha])
          refine ⟨?_, r, hsuf.trans (List.suffix_cons c rest), by rw [hr, h2]⟩
          rw [← h1]
          intro hm
          rcases List.mem_cons.mp hm with h3 | h3
          · exact hn h3.symm
          · exact hmid h3
        | none =>
          rw [ha] at h
          simp only [Option.map_none'] at h
          by_cases hp : c = ')'
          · rw [if_pos hp] at h
            cases hcr : cont rest with
            | none => rw [hcr] at h; cases h
            | some m =>
              rw [hcr] at h
              simp only [Option.map_some'] at h
              injection h with h'
              injection h' with h1 h2
              exact ⟨by rw [← h1]; simp, rest, List.suffix_cons c rest,
                by rw [hcr, h2]⟩
          · rw [if_neg hp] at h
            cases h

theorem parseScope_spec (cont : List Char → Option (List Char))
    {l mid m4 : List Char} (h : parseScope cont l = some (mid, m4)) :
    (('\n' : Char) ∉ mid) ∧ ∃ r, r <:+ l ∧ cont r = some m4 := by
  cases l with
  | nil => cases h
  | cons c rest =>
    have h' : (if c = '\n' then none
        else (scopeAux cont (rest.length + 1) rest).map
          (fun p => (c :: p.1, p.2))) = some (mid, m4) := h
    by_cases hn : c = '\n'
    · rw [if_pos hn] at h'; cases h'
    · rw [if_neg hn] at h'
      cases ha : scopeAux cont (rest.length + 1) rest with
      | none => rw [ha] at h'; cases h'
      | some p =>
        rw [ha] at h'
        simp only [Option.map_some', Option.some.injEq, Prod.mk.injEq] at h'
        obtain ⟨h1, h2⟩ := h'
        obtain ⟨hmid, r, hsuf, hr⟩ := scopeAux_spec cont _ _ _ _ ha
        refine ⟨?_, r, hsuf.trans (List.suffix_cons c rest), by rw [hr, h2]⟩
        rw [← h1]
        intro hm
        rcases List.mem_cons.mp hm with h3 | h3
        · exact hn h3.symm
        · exact hmid h3

/-- For newline-free input, a successful duplicated-prefix match yields a
type from the enum, a newline-free scope, and a description that is a
nonempty suffix of the input. -/
theorem dupMatch_spec {l : List Char} {t : List Char} {sc : Option (List Char)}
    {d : List Char} (hnl : ('\n' : Char) ∉ l) (h : dupMatch l = some (t, sc, d)) :
    t ∈ commitTypes ∧ (('\n' : Char) ∉ sc.getD []) ∧ d <:+ l ∧ d ≠ [] := by
  unfold dupMatch at h
  cases h1 : matchTypeC commitTypes l with
  | none => simp only [h1] at h; cases h
  | some q1 =>
    obtain ⟨o, r1⟩ := q1
    simp only [h1] at h
    have hs1 : r1 <:+ l := matchTypeC_suffix commitTypes l o r1 h1
    cases h2 : parseColonWs r1 with
    | none => simp only [h2] at h; cases h
    | some r2 =>
      simp only [h2] at h
      have hs2 : r2 <:+ l := (parseColonWs_suffix h2).trans hs1
      cases h3 : matchTypeC commitTypes r2 with
      | none => simp only [h3] at h; cases h
      | some q3 =>
        obtain ⟨innerT, r3⟩ := q3
        have hmem : innerT ∈ commitTypes := matchTypeC_mem commitTypes r2 innerT r3 h3
        have hs3 : r3 <:+ l := (matchTypeC_suffix commitTypes r2 innerT r3 h3).trans hs2
        cases r3 with
        | cons c r4 =>
          have hs4 : r4 <:+ l := (List.suffix_cons c r4).trans hs3
          simp only [h3] at h
          by_cases hc : c = '('
          · subst hc
            rw [if_pos rfl] at h
            cases h4 : parseScope dupTail r4 with
            | some p4 =>
              obtain ⟨mid, m4⟩ := p4
              simp only [h4, Option.some.injEq, Prod.mk.injEq] at h
              obtain ⟨rfl, rfl, rfl⟩ := h
              obtain ⟨hmid, r5, hsuf5, hr5⟩ := parseScope_spec dupTail h4
              have hs5 : r5 <:+ l := hsuf5.trans hs4
              have hnl5 : ('\n' : Char) ∉ r5 := fun hm => hnl (hs5.subset hm)
              obtain ⟨hds, hdne⟩ := dupTail_suffix hnl5 hr5
              refine ⟨hmem, ?_, hds.trans hs5, hdne⟩
              simp only [Option.getD_some]
              intro hm
              rcases List.mem_cons.mp hm with h5 | h5
              · cases h5
              · rcases List.mem_append.mp h5 with h6 | h6
                · exact hmid h6
                · simp at h6
            | none =>
              simp only [h4] at h
              cases h5 : dupTail ('(' :: r4) with
              | none => simp only [h5] at h; cases h
              | some m4 =>
                simp only [h5, Option.some.injEq, Prod.mk.injEq] at h
                obtain ⟨rfl, rfl, rfl⟩ := h
                have hnl3 : ('\n' : Char) ∉ ('(' :: r4) := fun hm => hnl (hs3.subset hm)
                obtain ⟨hds, hdne⟩ := dupTail_suffix hnl3 h5
                exact ⟨hmem, by simp, hds.trans hs3, hdne⟩
          · rw [if_neg hc] at h
            cases h5 : dupTail (c :: r4) with
            | none => simp only [h5] at h; cases h
            | some m4 =>
              simp only [h5, Option.some.injEq, Prod.mk.injEq] at h
              obtain ⟨rfl, rfl, rfl⟩ := h
              have hnl3 : ('\n' : Char) ∉ (c :: r4) := fun hm => hnl (hs3.subset hm)
              obtain ⟨hds, hdne⟩ := dupTail_suffix hnl3 h5
              exact ⟨hmem, by simp, hds.trans hs3, hdne⟩
        | nil =>
          simp only [h3] at h
          cases h5 : dupTail [] with
          | none => simp only [h5] at h; cases h
          | some m4 =>
            simp only [h5, Option.some.injEq, Prod.mk.injEq] at h
            obtain ⟨rfl, rfl, rfl⟩ := h
            obtain ⟨hds, hdne⟩ := dupTail_suffix (by simp) h5
            exact ⟨hmem, by simp, hds.trans hs3, hdne⟩

theorem commitTypes_no_newline : ∀ t ∈ commitTypes, ('\n' : Char) ∉ t := by
  decide

theorem dupCollapse_no_newline {l : List Char} (h : ('\n' : Char) ∉ l) :
    ('\n' : Char) ∉ dupCollapse l := by
  unfold dupCollapse
  cases hd : dupMatch l with
  | none => exact h
  | some p =>
    obtain ⟨t, sc, d⟩ := p
    obtain ⟨hmem, hsc, hsuf, hdne⟩ := dupMatch_spec h hd
    intro hm
    rcases List.mem_append.mp hm with h1 | h1
    · rcases List.mem_append.mp h1 with h2 | h2
      · exact commitTypes_no_newline t hmem h2
      · exact hsc h2
    · rcases List.mem_cons.mp h1 with h2 | h2
      · cases h2
      · rcases List.mem_cons.mp h2 with h3 | h3
        · cases h3
        · exact h (hsuf.subset h3)

/-- A right-trim-fixed newline-free line stays right-trim-fixed under the
duplicated-prefix collapse. -/
theorem dupCollapse_rtrim {l : List Char} (hr : rtrim l = l)
    (hnl : ('\n' : Char) ∉ l) : rtrim (dupCollapse l) = dupCollapse l := by
  unfold dupCollapse
  cases hd : dupMatch l with
  | none => exact hr
  | some p =>
    obtain ⟨t, sc, d⟩ := p
    obtain ⟨hmem, hsc, hsuf, hdne⟩ := dupMatch_spec hnl hd
    have hdfix : rtrim d = d := rtrim_suffix_fixed hr hsuf
    show rtrim (t ++ sc.getD [] ++ ':' :: ' ' :: d) =
      t ++ sc.getD [] ++ ':' :: ' ' :: d
    have hshape : t ++ sc.getD [] ++ ':' :: ' ' :: d =
        (t ++ sc.getD [] ++ [':', ' ']) ++ d := by simp
    rw [hshape]
    exact rtrim_append _ _ hdfix hdne


/-! ### C4: the header pattern occurs at most once in a normalized
message, and only as the first line -/

theorem normalize_eq (x : List Char) :
    normalize x = if jsTrim x = [] then none
      else some (jsTrim (joinLines (normLines7 x))) := rfl

theorem dropLeadingTypeOnly_subset :
    ∀ (fuel : Nat) (ls : List (List Char)), dropLeadingTypeOnly fuel ls ⊆ ls := by
  intro fuel
  induction fuel with
  | zero => intro ls; exact fun x hx => hx
  | succ n ih =>
    intro ls
    cases ls with
    | nil => exact fun x hx => hx
    | cons l rest =>
      by_cases ht : typeOnlyLine l
      · have heq : dropLeadingTypeOnly (n + 1) (l :: rest) =
            dropLeadingTypeOnly n (rest.dropWhile isBlank) := by
          simp [dropLeadingTypeOnly, ht]
        rw [heq]
        intro z hz
        have hz2 : z ∈ rest.dropWhile isBlank := ih _ hz
        have hsuf : rest.dropWhile isBlank <:+ rest :=
          ⟨rest.takeWhile isBlank, by rw [List.takeWhile_append_dropWhile]⟩
        exact List.mem_cons_of_mem l (hsuf.sublist.subset hz2)
      · have heq : dropLeadingTypeOnly (n + 1) (l :: rest) = l :: rest := by
          simp [dropLeadingTypeOnly, ht]
        rw [heq]
        exact fun z hz => hz

theorem sliceFromHeader_subset (ls : List (List Char)) :
    sliceFromHeader ls ⊆ ls := by
  unfold sliceFromHeader
  cases hi : findHeaderIdx ls with
  | none => exact fun z hz => hz
  | some i =>
    show (if 0 < i then ls.drop i else ls) ⊆ ls
    by_cases h0 : 0 < i
    · rw [if_pos h0]
      exact List.drop_subset i ls
    · rw [if_neg h0]
      exact fun z hz => hz

/-- All lines of a successful normalizer output, apart from the first, fail
the header pattern. -/
theorem normalize_tail_lines {x y : List Char} (h : normalize x = some y) :
    ∀ m ∈ (splitOnChar '\n' y).tail, headerLine m = false := by
  rw [normalize_eq] at h
  by_cases ht : jsTrim x = []
  · rw [if_pos ht] at h; cases h
  · rw [if_neg ht] at h
    injection h with hy
    have H2 : ∀ m ∈ normLines2 x, rtrim m = m ∧ ('\n' : Char) ∉ m := by
      intro m hm
      have hsuf : ((((splitOnChar '\n' (cleanMessage (inferType (stripPreamble
            (jsTrim x))))).map rtrim).filter
          (fun l => !(isFence l))).dropWhile isBlank) <:+
          ((((splitOnChar '\n' (cleanMessage (inferType (stripPreamble
            (jsTrim x))))).map rtrim).filter (fun l => !(isFence l)))) :=
        ⟨_, by rw [List.takeWhile_append_dropWhile]⟩
      have hm1 : m ∈ (((splitOnChar '\n' (cleanMessage (inferType (stripPreamble
          (jsTrim x))))).map rtrim).filter (fun l => !(isFence l))) :=
        hsuf.sublist.subset hm
      have hm2 : m ∈ ((splitOnChar '\n' (cleanMessage (inferType (stripPreamble
          (jsTrim x))))).map rtrim) := (List.mem_filter.mp hm1).1
      obtain ⟨z, hz, hzm⟩ := List.mem_map.mp hm2
      constructor
      · rw [← hzm, rtrim_idem]
      · intro hc
        exact mem_splitOnChar_no_sep _ z hz (mem_rtrim (hzm ▸ hc))
    have H4 : ∀ m ∈ sliceFromHeader (dropLeadingTypeOnly (normLines2 x).length
        (normLines2 x)), rtrim m = m ∧ ('\n' : Char) ∉ m := by
      intro m hm
      exact H2 m (dropLeadingTypeOnly_subset _ _ (sliceFromHeader_subset _ hm))
    cases hl4 : sliceFromHeader (dropLeadingTypeOnly (normLines2 x).length
        (normLines2 x)) with
    | nil =>
      have h7 : normLines7 x = [] := by
        unfold normLines7
        rw [hl4]
        rfl
      intro m hm
      rw [← hy, h7] at hm
      have hz : (splitOnChar '\n' (jsTrim (joinLines
          ([] : List (List Char))))).tail = [] := rfl
      rw [hz] at hm
      cases hm
    | cons a4 r4 =>
      obtain ⟨r6, h6eq, h6sub⟩ := collapseBlanks_shape (dupCollapse a4) r4
      obtain ⟨r7, h7eq, h7sub, h7hdr⟩ := truncate_shape (dupCollapse a4) r6
      have h7 : normLines7 x = dupCollapse a4 :: r7 := by
        unfold normLines7
        rw [hl4]
        have hcd : collapseDupHead (a4 :: r4) = dupCollapse a4 :: r4 := rfl
        rw [hcd, h6eq, h7eq]
      have hPa4 : rtrim a4 = a4 ∧ ('\n' : Char) ∉ a4 :=
        H4 a4 (by rw [hl4]; exact List.mem_cons_self a4 r4)
      have hPhead : rtrim (dupCollapse a4) = dupCollapse a4 ∧
          ('\n' : Char) ∉ dupCollapse a4 :=
        ⟨dupCollapse_rtrim hPa4.1 hPa4.2, dupCollapse_no_newline hPa4.2⟩
      have hP7 : ∀ m ∈ normLines7 x, rtrim m = m ∧ ('\n' : Char) ∉ m := by
        intro m hm
        rw [h7] at hm
        rcases List.mem_cons.mp hm with h1 | h1
        · rw [h1]; exact hPhead
        · have hmr : m ∈ r4 := h6sub (h7sub h1)
          exact H4 m (by rw [hl4]; exact List.mem_cons_of_mem a4 hmr)
      have hne7 : normLines7 x ≠ [] := by rw [h7]; simp
      have hsplit : splitOnChar '\n' (joinLines (normLines7 x)) = normLines7 x :=
        splitOnChar_joinLines _ hne7 (fun l hl => (hP7 l hl).2)
      have htails : ∀ m ∈ (splitOnChar '\n' (joinLines (normLines7 x))).tail,
          rtrim m = m := by
        intro m hm
        rw [hsplit, h7] at hm
        exact (hP7 m (by rw [h7]; exact List.mem_cons_of_mem _ hm)).1
      intro m hm
      rw [← hy] at hm
      have hm1 : m ∈ (splitOnChar '\n' (rtrim (joinLines (normLines7 x)))).tail :=
        ltrim_tail_lines _ m hm
      have hm2 : m ∈ (splitOnChar '\n' (joinLines (normLines7 x))).tail :=
        rtrim_tail_lines _ htails m hm1
      rw [hsplit, h7] at hm2
      exact h7hdr m hm2


/-- C4 (amended).  Every successful normalizer output contains at most one
line matching the conventional-commit header pattern, and when one occurs
it is the first line.  (The original claim — the first line always matches
and the pattern occurs exactly once — is refuted by
`C4_header_counterexample`.) -/
theorem C4_single_header (x y : List Char) (h : normalize x = some y) :
    headerCount y ≤ 1 ∧ (headerCount y = 1 → headerLine (firstLine y) = true) := by
  have htail := normalize_tail_lines h
  cases hs : splitOnChar '\n' y with
  | nil => exact absurd hs (splitOnChar_ne_nil '\n' y)
  | cons a r =>
    rw [hs] at htail
    simp only [List.tail_cons] at htail
    have hfil : r.filter headerLine = [] := by
      rw [List.filter_eq_nil]
      intro m hm
      simp [htail m hm]
    have hcount : headerCount y = if headerLine a then 1 else 0 := by
      rw [headerCount, hs, List.filter_cons]
      by_cases ha : headerLine a
      · simp [ha, hfil]
      · simp [ha, hfil]
    have hfirst : firstLine y = a := by rw [firstLine, hs]; rfl
    constructor
    · rw [hcount]
      by_cases ha : headerLine a
      · rw [if_pos ha]
      · rw [if_neg ha]; exact Nat.zero_le 1
    · intro h1
      rw [hcount] at h1
      rw [hfirst]
      by_cases ha : headerLine a
      · exact ha
      · rw [if_neg ha] at h1; cases h1

theorem C4_single_header_witness :
    normalize ("feat: add retry".data) = some ("feat: add retry".data) ∧
    (headerCount ("feat: add retry".data) ≤ 1 ∧
      (headerCount ("feat: add retry".data) = 1 →
        headerLine (firstLine ("feat: add retry".data)) = true)) :=
  ⟨by decide, C4_single_header ("feat: add retry".data) ("feat: add retry".data)
    (by decide)⟩


/-! ### C3: the normalizer is a fixed point on clean single-line headers -/

theorem jsIsWs_eq_false_of_lower {c : Char} (h1 : 'a' ≤ c) : jsIsWs c = false := by
  cases hb : jsIsWs c with
  | false => rfl
  | true =>
    exfalso
    unfold jsIsWs at hb
    have hd : ((((c = ' ' ∨ c = '\t') ∨ c = '\n') ∨ c = '\r') ∨ c = '\x0b') ∨
        c = '\x0c' := by simpa using hb
    rcases hd with ((((rfl | rfl) | rfl) | rfl) | rfl) | rfl <;>
      exact absurd h1 (by decide)

/-- The character set of the clean header inputs considered for the
idempotence property: lower-case letters, the colon and the space.  None of
these characters can begin a match of any of the ten cleanup patterns. -/
def goodChar (c : Char) : Bool :=
  ('a' ≤ c && c ≤ 'z') || c = ':' || c = ' '

theorem goodChar_cases {c : Char} (h : goodChar c = true) :
    ('a' ≤ c ∧ c ≤ 'z') ∨ c = ':' ∨ c = ' ' := by
  unfold goodChar at h
  simp only [Bool.or_eq_true, Bool.and_eq_true, decide_eq_true_eq] at h
  tauto

theorem goodChar_of_lower {c : Char} (h1 : 'a' ≤ c) (h2 : c ≤ 'z') :
    goodChar c = true := by
  unfold goodChar
  simp [h1, h2]

theorem goodChar_ne {c : Char} (h : goodChar c = true) :
    ¬(c = '<') ∧ ¬(c = '*') ∧ ¬(c = '_') ∧ ¬(c = '\x60') ∧
      ¬(c = '\t') ∧ ¬(c = '\r') ∧ ¬(c = '\n') := by
  rcases goodChar_cases h with ⟨h1, h2⟩ | rfl | rfl
  · refine ⟨?_, ?_, ?_, ?_, ?_, ?_, ?_⟩ <;>
      · intro he
        subst he
        revert h1
        decide
  · exact ⟨by decide, by decide, by decide, by decide, by decide, by decide,
      by decide⟩
  · exact ⟨by decide, by decide, by decide, by decide, by decide, by decide,
      by decide⟩

theorem dropWhile_all_false (p : Char → Bool) :
    ∀ l : List Char, (∀ c ∈ l, p c = false) → l.dropWhile p = l := by
  intro l h
  cases l with
  | nil => rfl
  | cons c t =>
    rw [List.dropWhile_cons, if_neg (by simp [h c (List.mem_cons_self c t)])]

/-- One global replace is the identity when the pattern matches at no
position; it suffices that it fails on every character of a safe set. -/
theorem scanReplace_id (tf : List Char → Option (List Char × List Char))
    (hsafe : ∀ (c : Char) (rest : List Char), goodChar c = true →
      tf (c :: rest) = none) :
    ∀ (fuel : Nat) (l : List Char), (∀ c ∈ l, goodChar c = true) →
      scanReplace tf fuel l = l := by
  intro fuel
  induction fuel with
  | zero => intro l _; rfl
  | succ n ih =>
    intro l hl
    cases l with
    | nil => rfl
    | cons c rest =>
      have h1 : tf (c :: rest) = none := hsafe c rest (hl c (List.mem_cons_self c rest))
      simp only [scanReplace, h1]
      rw [ih rest (fun z hz => hl z (List.mem_cons_of_mem c hz))]

theorem tryThinkBlock_none (allowNs : Bool) (nm : List Char) (c : Char)
    (rest : List Char) (h : goodChar c = true) :
    tryThinkBlock allowNs nm (c :: rest) = none := by
  have hne := (goodChar_ne h).1
  have hopen : matchOpenTag allowNs nm (c :: rest) = none := by
    simp [matchOpenTag, hne]
  simp [tryThinkBlock, hopen]

theorem tryStrayTag_none (allowNs : Bool) (nm : List Char) (c : Char)
    (rest : List Char) (h : goodChar c = true) :
    tryStrayTag allowNs nm (c :: rest) = none := by
  have hne := (goodChar_ne h).1
  simp [tryStrayTag, hne]

theorem tryAnyTag_none (c : Char) (rest : List Char) (h : goodChar c = true) :
    tryAnyTag (c :: rest) = none := by
  have hne := (goodChar_ne h).1
  simp [tryAnyTag, hne]

theorem tryEmphasis_none (d0 : Char) (ds : List Char) (c : Char)
    (rest : List Char) (h : ¬(c = d0)) :
    tryEmphasis (d0 :: ds) (c :: rest) = none := by
  have hm : matchLit (d0 :: ds) (c :: rest) = none := by
    simp [matchLit, h]
  simp [tryEmphasis, hm]

theorem tryBacktickCode_none (c : Char) (rest : List Char)
    (h : ¬(c = '\x60')) : tryBacktickCode (c :: rest) = none := by
  simp [tryBacktickCode, h]

theorem tryTabsCRs_none (c : Char) (rest : List Char)
    (h1 : ¬(c = '\t')) (h2 : ¬(c = '\r')) : tryTabsCRs (c :: rest) = none := by
  simp [tryTabsCRs, h1, h2]

theorem tryNewlines3_none (c : Char) (rest : List Char)
    (h : ¬(c = '\n')) : tryNewlines3 (c :: rest) = none := by
  simp [tryNewlines3, h]

/-- `cleanMessage` is the identity on trim-fixed strings over the safe
character set. -/
theorem cleanMessage_id_of_good {l : List Char}
    (hg : ∀ c ∈ l, goodChar c = true) (hjt : jsTrim l = l) :
    cleanMessage l = l := by
  by_cases hnil : l = []
  · subst hnil; rfl
  · have h1 : scanReplace (tryThinkBlock true ('t' :: 'h' :: 'i' :: 'n' :: 'k' :: []))
        l.length l = l :=
      scanReplace_id _ (fun c rest hc => tryThinkBlock_none true _ c rest hc)
        l.length l hg
    have h2 : scanReplace
        (tryThinkBlock false ('t' :: 'h' :: 'i' :: 'n' :: 'k' :: 'i' :: 'n' :: 'g' :: []))
        l.length l = l :=
      scanReplace_id _ (fun c rest hc => tryThinkBlock_none false _ c rest hc)
        l.length l hg
    have h3 : scanReplace (tryStrayTag true ('t' :: 'h' :: 'i' :: 'n' :: 'k' :: []))
        l.length l = l :=
      scanReplace_id _ (fun c rest hc => tryStrayTag_none true _ c rest hc)
        l.length l hg
    have h4 : scanReplace
        (tryStrayTag false ('t' :: 'h' :: 'i' :: 'n' :: 'k' :: 'i' :: 'n' :: 'g' :: []))
        l.length l = l :=
      scanReplace_id _ (fun c rest hc => tryStrayTag_none false _ c rest hc)
        l.length l hg
    have h5 : scanReplace tryAnyTag l.length l = l :=
      scanReplace_id _ (fun c rest hc => tryAnyTag_none c rest hc) l.length l hg
    have h6 : scanReplace (tryEmphasis ('*' :: '*' :: [])) l.length l = l :=
      scanReplace_id _ (fun c rest hc =>
        tryEmphasis_none '*' _ c rest (goodChar_ne hc).2.1) l.length l hg
    have h7 : scanReplace (tryEmphasis ('_' :: '_' :: [])) l.length l = l :=
      scanReplace_id _ (fun c rest hc =>
        tryEmphasis_none '_' _ c rest (goodChar_ne hc).2.2.1) l.length l hg
    have h8 : scanReplace tryBacktickCode l.length l = l :=
      scanReplace_id _ (fun c rest hc =>
        tryBacktickCode_none c rest (goodChar_ne hc).2.2.2.1) l.length l hg
    have h9 : scanReplace tryTabsCRs l.length l = l :=
      scanReplace_id _ (fun c rest hc =>
        tryTabsCRs_none c rest (goodChar_ne hc).2.2.2.2.1
          (goodChar_ne hc).2.2.2.2.2.1) l.length l hg
    have h10 : scanReplace tryNewlines3 l.length l = l :=
      scanReplace_id _ (fun c rest hc =>
        tryNewlines3_none c rest (goodChar_ne hc).2.2.2.2.2.2) l.length l hg
    unfold cleanMessage
    rw [if_neg hnil]
    simp only [h1, h2, h3, h4, h5, h6, h7, h8, h9, h10, hjt]


/-- The normalizer is a fixed point on `feat: ` followed by a nonempty
lower-case word. -/
theorem normalize_simple_header_fixpoint (c0 : Char) (d0 : List Char)
    (hd : ∀ c ∈ c0 :: d0, 'a' ≤ c ∧ c ≤ 'z') :
    normalize ('f' :: 'e' :: 'a' :: 't' :: ':' :: ' ' ::c0::d0) =
      some ('f' :: 'e' :: 'a' :: 't' :: ':' :: ' ' ::c0::d0) := by
  have hc0 := hd c0 (List.mem_cons_self c0 d0)
  have hc0ne : ¬(c0 = '\n') := fun he => absurd (he ▸ hc0.1) (by decide)
  have hws_c0 : jsIsWs c0 = false := jsIsWs_eq_false_of_lower hc0.1
  -- character-set facts
  have hgood : ∀ c ∈ ('f' :: 'e' :: 'a' :: 't' :: ':' :: ' ' ::c0::d0), goodChar c = true := by
    intro c hc
    simp only [List.mem_cons] at hc
    rcases hc with rfl | rfl | rfl | rfl | rfl | rfl | rfl | hc
    · decide
    · decide
    · decide
    · decide
    · decide
    · decide
    · exact goodChar_of_lower hc0.1 hc0.2
    · have hcl := hd c (List.mem_cons_of_mem c0 hc)
      exact goodChar_of_lower hcl.1 hcl.2
  have hnonl : ('\n' : Char) ∉ ('f' :: 'e' :: 'a' :: 't' :: ':' :: ' ' ::c0::d0) := by
    intro hm
    exact (goodChar_ne (hgood '\n' hm)).2.2.2.2.2.2 rfl
  -- trim facts
  have hrd : rtrim (c0::d0) = c0::d0 := by
    unfold rtrim
    rw [dropWhile_all_false jsIsWs ((c0::d0).reverse)
      (fun c hc => jsIsWs_eq_false_of_lower (hd c (List.mem_reverse.mp hc)).1),
      List.reverse_reverse]
  have hrx : rtrim ('f' :: 'e' :: 'a' :: 't' :: ':' :: ' ' ::c0::d0) =
      'f' :: 'e' :: 'a' :: 't' :: ':' :: ' ' ::c0::d0 := by
    have h0 := rtrim_append ['f','e','a','t',':',' '] (c0::d0) hrd (by simp)
    simpa using h0
  have hlx : ltrim ('f' :: 'e' :: 'a' :: 't' :: ':' :: ' ' ::c0::d0) =
      'f' :: 'e' :: 'a' :: 't' :: ':' :: ' ' ::c0::d0 := by
    unfold ltrim
    rw [List.dropWhile_cons, if_neg (by decide)]
  have hjt : jsTrim ('f' :: 'e' :: 'a' :: 't' :: ':' :: ' ' ::c0::d0) =
      'f' :: 'e' :: 'a' :: 't' :: ':' :: ' ' ::c0::d0 := by
    unfold jsTrim
    rw [hrx, hlx]
  -- stage facts
  have hsp : stripPreamble ('f' :: 'e' :: 'a' :: 't' :: ':' :: ' ' ::c0::d0) =
      'f' :: 'e' :: 'a' :: 't' :: ':' :: ' ' ::c0::d0 := rfl
  have hhs : headerStart ('f' :: 'e' :: 'a' :: 't' :: ':' :: ' ' ::c0::d0) = true := by
    show (!(c0 = '\n') : Bool) = true
    simp [hc0ne]
  have hit : inferType ('f' :: 'e' :: 'a' :: 't' :: ':' :: ' ' ::c0::d0) =
      'f' :: 'e' :: 'a' :: 't' :: ':' :: ' ' ::c0::d0 := by
    unfold inferType
    rw [if_pos hhs]
  have hcm : cleanMessage ('f' :: 'e' :: 'a' :: 't' :: ':' :: ' ' ::c0::d0) =
      'f' :: 'e' :: 'a' :: 't' :: ':' :: ' ' ::c0::d0 :=
    cleanMessage_id_of_good hgood hjt
  have hfence : isFence ('f' :: 'e' :: 'a' :: 't' :: ':' :: ' ' ::c0::d0) = false := rfl
  have hblank : isBlank ('f' :: 'e' :: 'a' :: 't' :: ':' :: ' ' ::c0::d0) = false := by
    unfold isBlank
    rw [hjt]
    simp
  have hdw : (' ' ::c0::d0).dropWhile jsIsWs = c0::d0 := by
    rw [List.dropWhile_cons, if_pos (by decide), List.dropWhile_cons,
      if_neg (by simp [hws_c0])]
  have htol : typeOnlyLine ('f' :: 'e' :: 'a' :: 't' :: ':' :: ' ' ::c0::d0) = false := by
    show (decide ((' ' ::c0::d0).dropWhile jsIsWs = [])) = false
    rw [hdw]
    simp
  have hhl : headerLine ('f' :: 'e' :: 'a' :: 't' :: ':' :: ' ' ::c0::d0) = true := by
    show (!(c0 = '\n') || (jsIsWs c0 && wsThenContentAux d0)) = true
    simp [hc0ne]
  -- the duplicated-prefix matcher does not fire
  have hmtC : matchTypeC commitTypes ('f' :: 'e' :: 'a' :: 't' :: ':' :: ' ' ::c0::d0) =
      some ("feat".data, ':' :: ' ' ::c0::d0) := rfl
  have hpc : parseColonWs (':' :: ' ' ::c0::d0) = some (c0::d0) := by
    show (if (':' : Char) = ':' then
        (if ((' ' ::c0::d0).dropWhile jsIsWs).length < (' ' ::c0::d0).length
          then some ((' ' ::c0::d0).dropWhile jsIsWs) else none)
        else none) = some (c0::d0)
    rw [if_pos rfl, hdw, if_pos (by simp only [List.length_cons]; omega)]
  have hdt : ∀ r3, r3 <:+ (c0::d0) → dupTail r3 = none := by
    intro r3 hsuf
    cases r3 with
    | nil => rfl
    | cons a r4 =>
      have ha := hd a (hsuf.subset (List.mem_cons_self a r4))
      have hbang : ¬(a = '!') := fun he => absurd (he ▸ ha.1) (by decide)
      have hcol : ¬(a = ':') := fun he => absurd (he ▸ ha.1) (by decide)
      unfold dupTail
      have hob : optBang (a::r4) = a::r4 := by
        show (if a = '!' then r4 else a::r4) = a::r4
        rw [if_neg hbang]
      rw [hob]
      have hpc3 : parseColonWs (a::r4) = none := by
        show (if a = ':' then
            (if (r4.dropWhile jsIsWs).length < r4.length
              then some (r4.dropWhile jsIsWs) else none)
            else none) = none
        rw [if_neg hcol]
      rw [hpc3]
  have hdup : dupMatch ('f' :: 'e' :: 'a' :: 't' :: ':' :: ' ' ::c0::d0) = none := by
    cases hdm : dupMatch ('f' :: 'e' :: 'a' :: 't' :: ':' :: ' ' ::c0::d0) with
    | none => rfl
    | some p =>
      exfalso
      obtain ⟨t, sc, dd⟩ := p
      unfold dupMatch at hdm
      simp only [hmtC] at hdm
      simp only [hpc] at hdm
      cases hm2 : matchTypeC commitTypes (c0::d0) with
      | none => simp only [hm2] at hdm; cases hdm
      | some q =>
        obtain ⟨t2, r3⟩ := q
        have hs3 : r3 <:+ (c0::d0) := matchTypeC_suffix _ _ _ _ hm2
        cases r3 with
        | nil =>
          simp only [hm2] at hdm
          rw [hdt [] List.nil_suffix] at hdm
          cases hdm
        | cons a r4 =>
          simp only [hm2] at hdm
          have ha := hd a (hs3.subset (List.mem_cons_self a r4))
          have hpar : ¬(a = '(') := fun he => absurd (he ▸ ha.1) (by decide)
          rw [if_neg hpar] at hdm
          rw [hdt (a::r4) hs3] at hdm
          cases hdm
  have hdupc : dupCollapse ('f' :: 'e' :: 'a' :: 't' :: ':' :: ' ' ::c0::d0) =
      'f' :: 'e' :: 'a' :: 't' :: ':' :: ' ' ::c0::d0 := by
    unfold dupCollapse
    rw [hdup]
  -- the line pipeline
  have hm3 : cleanMessage (inferType (stripPreamble
      (jsTrim ('f' :: 'e' :: 'a' :: 't' :: ':' :: ' ' ::c0::d0)))) =
      'f' :: 'e' :: 'a' :: 't' :: ':' :: ' ' ::c0::d0 := by
    rw [hjt, hsp, hit, hcm]
  have hsplit1 : splitOnChar '\n' ('f' :: 'e' :: 'a' :: 't' :: ':' :: ' ' ::c0::d0) =
      [('f' :: 'e' :: 'a' :: 't' :: ':' :: ' ' ::c0::d0)] := splitOnChar_no_sep hnonl
  have hl2 : normLines2 ('f' :: 'e' :: 'a' :: 't' :: ':' :: ' ' ::c0::d0) =
      [('f' :: 'e' :: 'a' :: 't' :: ':' :: ' ' ::c0::d0)] := by
    unfold normLines2
    rw [hm3, hsplit1]
    simp [hrx, hfence, hblank]
  have hfh : findHeaderIdx [('f' :: 'e' :: 'a' :: 't' :: ':' :: ' ' ::c0::d0)] = some 0 := by
    simp [findHeaderIdx, hhl]
  have hl7 : normLines7 ('f' :: 'e' :: 'a' :: 't' :: ':' :: ' ' ::c0::d0) =
      [('f' :: 'e' :: 'a' :: 't' :: ':' :: ' ' ::c0::d0)] := by
    unfold normLines7
    rw [hl2]
    have hdrop : dropLeadingTypeOnly
        ([('f' :: 'e' :: 'a' :: 't' :: ':' :: ' ' ::c0::d0)] : List (List Char)).length
        [('f' :: 'e' :: 'a' :: 't' :: ':' :: ' ' ::c0::d0)] =
        [('f' :: 'e' :: 'a' :: 't' :: ':' :: ' ' ::c0::d0)] := by
      simp [dropLeadingTypeOnly, htol]
    rw [hdrop]
    have hslice : sliceFromHeader [('f' :: 'e' :: 'a' :: 't' :: ':' :: ' ' ::c0::d0)] =
        [('f' :: 'e' :: 'a' :: 't' :: ':' :: ' ' ::c0::d0)] := by
      unfold sliceFromHeader
      rw [hfh]
      rfl
    rw [hslice]
    rw [show collapseDupHead [('f' :: 'e' :: 'a' :: 't' :: ':' :: ' ' ::c0::d0)] =
      [dupCollapse ('f' :: 'e' :: 'a' :: 't' :: ':' :: ' ' ::c0::d0)] from rfl, hdupc]
    rfl
  rw [normalize_eq, if_neg (by rw [hjt]; simp), hl7]
  rw [show joinLines [('f' :: 'e' :: 'a' :: 't' :: ':' :: ' ' ::c0::d0)] =
    'f' :: 'e' :: 'a' :: 't' :: ':' :: ' ' ::c0::d0 from rfl, hjt]


/-- C3 (amended).  The normalizer is idempotent on clean single-line
conventional headers: on `feat: ` followed by a nonempty lower-case word it
is a fixed point, so a second pass changes nothing.  (Idempotence fails in
general: `C3_idempotence_counterexample` shows a duplicated type prefix is
collapsed only one level per pass.) -/
theorem C3_normalize_idempotent_on_clean_headers (d : List Char) (hne : d ≠ [])
    (hd : ∀ c ∈ d, 'a' ≤ c ∧ c ≤ 'z') :
    normalize ("feat: ".data ++ d) = some ("feat: ".data ++ d) ∧
    (normalize ("feat: ".data ++ d)).bind normalize =
      normalize ("feat: ".data ++ d) := by
  obtain ⟨c0, d0, rfl⟩ : ∃ c0 d0, d = c0 :: d0 := by
    cases d with
    | nil => exact absurd rfl hne
    | cons a b => exact ⟨a, b, rfl⟩
  have hfix := normalize_simple_header_fixpoint c0 d0 hd
  have hxeq : "feat: ".data ++ (c0 :: d0) =
      'f' :: 'e' :: 'a' :: 't' :: ':' :: ' ' ::c0::d0 := rfl
  rw [hxeq]
  refine ⟨hfix, ?_⟩
  rw [hfix]
  exact hfix

theorem C3_normalize_idempotent_on_clean_headers_witness :
    ("hi".data ≠ [] ∧ ∀ c ∈ "hi".data, 'a' ≤ c ∧ c ≤ 'z') ∧
    (normalize ("feat: ".data ++ "hi".data) =
        some ("feat: ".data ++ "hi".data) ∧
      (normalize ("feat: ".data ++ "hi".data)).bind normalize =
        normalize ("feat: ".data ++ "hi".data)) :=
  ⟨⟨by decide, by decide⟩,
    C3_normalize_idempotent_on_clean_headers ("hi".data) (by decide) (by decide)⟩

end GitAICommit